import Mathlib

/-!
# Byte-order utilities of `utils/hendian.h`

A shallow embedding of the header: the byte-swap conversions, the typed
memory accessors, the get/put and pop/push cursor macros, `detect_endian`
and the generic `serialize` / `deserialize` templates, followed by the
theorems that settle the claims of the specification.

Conventions of the embedding

* a byte is a `Fin 256`; a buffer is a `List Byte`; a pointer into a buffer
  is the buffer together with an index (the cursor);
* an access outside the buffer is undefined behaviour in C; the embedding
  returns `none` there;
* unsigned integers of width `W` are natural numbers below `2 ^ W`;
* the host byte order is a parameter `h : Host` wherever the C code depends
  on it (`BYTE_ORDER`, the object representation of an integer).
-/

set_option autoImplicit false

namespace Hendian

/-! ## Bytes, hosts and object representations -/

/-- One octet of memory (`uint8_t`). -/
abbrev Byte := Fin 256

/-- The byte order of the executing machine. -/
inductive Host where
  | little : Host
  | big : Host
  deriving DecidableEq, Repr

/-- Modelled from the spec: the fixed value `BIG_ENDIAN`, declared by the platform
header (`hplatform.h` / `<endian.h>`), which is not part of the sources at hand;
the customary value is used. -/
def BIG_ENDIAN : Int := 4321

/-- Modelled from the spec: the fixed value `LITTLE_ENDIAN`, declared by the
platform header, which is not part of the sources at hand; the customary value
is used. -/
def LITTLE_ENDIAN : Int := 1234

/-- The platform constant `BYTE_ORDER` of a host. -/
def BYTE_ORDER : Host → Int
  | .little => LITTLE_ENDIAN
  | .big => BIG_ENDIAN

/-- The `n` low-order bytes of `x`, least significant first. -/
def toLE : Nat → Nat → List Byte
  | 0, _ => []
  | n + 1, x => ⟨x % 256, Nat.mod_lt x (by decide)⟩ :: toLE n (x / 256)

/-- The number whose bytes, least significant first, are `bs`. -/
def ofLE : List Byte → Nat
  | [] => 0
  | b :: bs => b.val + 256 * ofLE bs

/-- Object representation of the `n`-byte unsigned integer `x` on host `h`:
the bytes of `x` in increasing address order. -/
def toBytes (h : Host) (n : Nat) (x : Nat) : List Byte :=
  match h with
  | .little => toLE n x
  | .big => (toLE n x).reverse

/-- The unsigned integer whose object representation on host `h` is `bs`. -/
def ofBytes (h : Host) (bs : List Byte) : Nat :=
  match h with
  | .little => ofLE bs
  | .big => ofLE bs.reverse

/-! ## Platform byte-swap primitives

The header takes these from the platform (`__builtin_bswapNN`, `htons`,
`htonl`, `htonll`, `ntohs`, `ntohl`, `ntohll`); they are not defined in the
repository and are embedded here after their documented behaviour. -/

/-- Byte `i` of `x`, counted from the least significant one. -/
def byteAt (x i : Nat) : Nat := (x / 2 ^ (8 * i)) % 256

/-- Modelled from the spec: the compiler intrinsic `__builtin_bswap16`, which
returns its 16-bit argument with the two bytes exchanged. -/
def __builtin_bswap16 (x : Nat) : Nat :=
  byteAt x 0 * 2 ^ 8 + byteAt x 1

/-- Modelled from the spec: the compiler intrinsic `__builtin_bswap32`, which
returns its 32-bit argument with the order of the four bytes reversed. -/
def __builtin_bswap32 (x : Nat) : Nat :=
  byteAt x 0 * 2 ^ 24 + byteAt x 1 * 2 ^ 16 + byteAt x 2 * 2 ^ 8 + byteAt x 3

/-- Modelled from the spec: the compiler intrinsic `__builtin_bswap64`, which
returns its 64-bit argument with the order of the eight bytes reversed. -/
def __builtin_bswap64 (x : Nat) : Nat :=
  byteAt x 0 * 2 ^ 56 + byteAt x 1 * 2 ^ 48 + byteAt x 2 * 2 ^ 40 + byteAt x 3 * 2 ^ 32
    + byteAt x 4 * 2 ^ 24 + byteAt x 5 * 2 ^ 16 + byteAt x 6 * 2 ^ 8 + byteAt x 7

/-- Modelled from the spec: `htons`, host to network (big-endian) order, 16 bits. -/
def htons (h : Host) (v : Nat) : Nat :=
  match h with
  | .little => __builtin_bswap16 v
  | .big => v % 2 ^ 16

/-- Modelled from the spec: `htonl`, host to network (big-endian) order, 32 bits. -/
def htonl (h : Host) (v : Nat) : Nat :=
  match h with
  | .little => __builtin_bswap32 v
  | .big => v % 2 ^ 32

/-- Modelled from the spec: `htonll`, host to network (big-endian) order, 64 bits. -/
def htonll (h : Host) (v : Nat) : Nat :=
  match h with
  | .little => __builtin_bswap64 v
  | .big => v % 2 ^ 64

/-- Modelled from the spec: `ntohs`, network (big-endian) to host order, 16 bits. -/
def ntohs (h : Host) (v : Nat) : Nat :=
  match h with
  | .little => __builtin_bswap16 v
  | .big => v % 2 ^ 16

/-- Modelled from the spec: `ntohl`, network (big-endian) to host order, 32 bits. -/
def ntohl (h : Host) (v : Nat) : Nat :=
  match h with
  | .little => __builtin_bswap32 v
  | .big => v % 2 ^ 32

/-- Modelled from the spec: `ntohll`, network (big-endian) to host order, 64 bits. -/
def ntohll (h : Host) (v : Nat) : Nat :=
  match h with
  | .little => __builtin_bswap64 v
  | .big => v % 2 ^ 64

/-! ## Fixed-width conversions (`hendian.h`, lines 21-42)

The branch of the header that defines the twelve conversions itself is
embedded. In the other two branches the same twelve names come from the
platform (`<libkern/OSByteOrder.h>`, `<endian.h>`) with the same meaning. -/

/-- Macro `htobe16(v)`, defined as `htons(v)`. -/
def htobe16 (h : Host) (v : Nat) : Nat := htons h v
/-- Macro `htobe32(v)`, defined as `htonl(v)`. -/
def htobe32 (h : Host) (v : Nat) : Nat := htonl h v
/-- Macro `htobe64(v)`, defined as `htonll(v)`. -/
def htobe64 (h : Host) (v : Nat) : Nat := htonll h v
/-- Macro `be16toh(v)`, defined as `ntohs(v)`. -/
def be16toh (h : Host) (v : Nat) : Nat := ntohs h v
/-- Macro `be32toh(v)`, defined as `ntohl(v)`. -/
def be32toh (h : Host) (v : Nat) : Nat := ntohl h v
/-- Macro `be64toh(v)`, defined as `ntohll(v)`. -/
def be64toh (h : Host) (v : Nat) : Nat := ntohll h v

/-- Macro `htole16(v)`: `(v)` when `BYTE_ORDER == LITTLE_ENDIAN`,
`__builtin_bswap16(v)` when `BYTE_ORDER == BIG_ENDIAN`. -/
def htole16 (h : Host) (v : Nat) : Nat :=
  if BYTE_ORDER h = LITTLE_ENDIAN then v else __builtin_bswap16 v
/-- Macro `htole32(v)`: `(v)` or `__builtin_bswap32(v)` by `BYTE_ORDER`. -/
def htole32 (h : Host) (v : Nat) : Nat :=
  if BYTE_ORDER h = LITTLE_ENDIAN then v else __builtin_bswap32 v
/-- Macro `htole64(v)`: `(v)` or `__builtin_bswap64(v)` by `BYTE_ORDER`. -/
def htole64 (h : Host) (v : Nat) : Nat :=
  if BYTE_ORDER h = LITTLE_ENDIAN then v else __builtin_bswap64 v
/-- Macro `le16toh(v)`: `(v)` or `__builtin_bswap16(v)` by `BYTE_ORDER`. -/
def le16toh (h : Host) (v : Nat) : Nat :=
  if BYTE_ORDER h = LITTLE_ENDIAN then v else __builtin_bswap16 v
/-- Macro `le32toh(v)`: `(v)` or `__builtin_bswap32(v)` by `BYTE_ORDER`. -/
def le32toh (h : Host) (v : Nat) : Nat :=
  if BYTE_ORDER h = LITTLE_ENDIAN then v else __builtin_bswap32 v
/-- Macro `le64toh(v)`: `(v)` or `__builtin_bswap64(v)` by `BYTE_ORDER`. -/
def le64toh (h : Host) (v : Nat) : Nat :=
  if BYTE_ORDER h = LITTLE_ENDIAN then v else __builtin_bswap64 v

/-! ## Typed memory access (`hendian.h`, lines 51-53)

`U16(p)`, `U32(p)`, `U64(p)` are the lvalues `*(uintNN_t*)(p)`: reading one
reads `NN / 8` bytes at `p` as an integer in the host's representation,
assigning to one stores the host's representation of the value converted to
`uintNN_t`. -/

/-- The `n` bytes of `m` at index `p`; `none` when they are not all inside `m`. -/
def loadBytes (m : List Byte) (p n : Nat) : Option (List Byte) :=
  if p + n ≤ m.length then some ((m.drop p).take n) else none

/-- The buffer `m` with the bytes `bs` written at index `p`; `none` when they do
not all fall inside `m`. -/
def storeBytes (m : List Byte) (p : Nat) (bs : List Byte) : Option (List Byte) :=
  if p + bs.length ≤ m.length then some (m.take p ++ bs ++ m.drop (p + bs.length)) else none

/-- Read of `*p` for `uint8_t* p`. -/
def readU8 (m : List Byte) (p : Nat) : Option Nat :=
  (loadBytes m p 1).map ofLE
/-- Read of `U16(p)`. -/
def readU16 (h : Host) (m : List Byte) (p : Nat) : Option Nat :=
  (loadBytes m p 2).map (ofBytes h)
/-- Read of `U32(p)`. -/
def readU32 (h : Host) (m : List Byte) (p : Nat) : Option Nat :=
  (loadBytes m p 4).map (ofBytes h)
/-- Read of `U64(p)`. -/
def readU64 (h : Host) (m : List Byte) (p : Nat) : Option Nat :=
  (loadBytes m p 8).map (ofBytes h)

/-- Assignment `*p = x` for `uint8_t* p`. -/
def writeU8 (m : List Byte) (p : Nat) (x : Nat) : Option (List Byte) :=
  storeBytes m p (toLE 1 x)
/-- Assignment `U16(p) = x`. -/
def writeU16 (h : Host) (m : List Byte) (p : Nat) (x : Nat) : Option (List Byte) :=
  storeBytes m p (toBytes h 2 x)
/-- Assignment `U32(p) = x`. -/
def writeU32 (h : Host) (m : List Byte) (p : Nat) (x : Nat) : Option (List Byte) :=
  storeBytes m p (toBytes h 4 x)
/-- Assignment `U64(p) = x`. -/
def writeU64 (h : Host) (m : List Byte) (p : Nat) (x : Nat) : Option (List Byte) :=
  storeBytes m p (toBytes h 8 x)

/-! ## Get / put with conversion (`hendian.h`, lines 58-72) -/

/-- Macro `GET_BE16(p)`, `be16toh(U16(p))`. -/
def GET_BE16 (h : Host) (m : List Byte) (p : Nat) : Option Nat := (readU16 h m p).map (be16toh h)
/-- Macro `GET_BE32(p)`, `be32toh(U32(p))`. -/
def GET_BE32 (h : Host) (m : List Byte) (p : Nat) : Option Nat := (readU32 h m p).map (be32toh h)
/-- Macro `GET_BE64(p)`, `be64toh(U64(p))`. -/
def GET_BE64 (h : Host) (m : List Byte) (p : Nat) : Option Nat := (readU64 h m p).map (be64toh h)
/-- Macro `GET_LE16(p)`, `le16toh(U16(p))`. -/
def GET_LE16 (h : Host) (m : List Byte) (p : Nat) : Option Nat := (readU16 h m p).map (le16toh h)
/-- Macro `GET_LE32(p)`, `le32toh(U32(p))`. -/
def GET_LE32 (h : Host) (m : List Byte) (p : Nat) : Option Nat := (readU32 h m p).map (le32toh h)
/-- Macro `GET_LE64(p)`, `le64toh(U64(p))`. -/
def GET_LE64 (h : Host) (m : List Byte) (p : Nat) : Option Nat := (readU64 h m p).map (le64toh h)

/-- Macro `PUT_BE16(p, v)`, `U16(p) = htobe16(v)`. -/
def PUT_BE16 (h : Host) (m : List Byte) (p v : Nat) : Option (List Byte) := writeU16 h m p (htobe16 h v)
/-- Macro `PUT_BE32(p, v)`, `U32(p) = htobe32(v)`. -/
def PUT_BE32 (h : Host) (m : List Byte) (p v : Nat) : Option (List Byte) := writeU32 h m p (htobe32 h v)
/-- Macro `PUT_BE64(p, v)`, `U64(p) = htobe64(v)`. -/
def PUT_BE64 (h : Host) (m : List Byte) (p v : Nat) : Option (List Byte) := writeU64 h m p (htobe64 h v)
/-- Macro `PUT_LE16(p, v)`, `U16(p) = htole16(v)`. -/
def PUT_LE16 (h : Host) (m : List Byte) (p v : Nat) : Option (List Byte) := writeU16 h m p (htole16 h v)
/-- Macro `PUT_LE32(p, v)`, `U32(p) = htole32(v)`. -/
def PUT_LE32 (h : Host) (m : List Byte) (p v : Nat) : Option (List Byte) := writeU32 h m p (htole32 h v)
/-- Macro `PUT_LE64(p, v)`, `U64(p) = htole64(v)`. -/
def PUT_LE64 (h : Host) (m : List Byte) (p v : Nat) : Option (List Byte) := writeU64 h m p (htole64 h v)

/-! ## Cursor-advancing pop / push (`hendian.h`, lines 75-93)

A pop yields the value assigned to `v` and the cursor after the statement; a
push yields the buffer and the cursor after the statement. -/

/-- Macro `POP_BE8(p, v)`, `v = *p; ++p`. -/
def POP_BE8 (m : List Byte) (p : Nat) : Option (Nat × Nat) :=
  (readU8 m p).map (fun v => (v, p + 1))
/-- Macro `POP_BE16(p, v)`, `v = be16toh(U16(p)); p += 2`. -/
def POP_BE16 (h : Host) (m : List Byte) (p : Nat) : Option (Nat × Nat) :=
  (readU16 h m p).map (fun x => (be16toh h x, p + 2))
/-- Macro `POP_BE32(p, v)`, `v = be32toh(U32(p)); p += 4`. -/
def POP_BE32 (h : Host) (m : List Byte) (p : Nat) : Option (Nat × Nat) :=
  (readU32 h m p).map (fun x => (be32toh h x, p + 4))
/-- Macro `POP_BE64(p, v)`, `v = be64toh(U64(p)); p += 8`. -/
def POP_BE64 (h : Host) (m : List Byte) (p : Nat) : Option (Nat × Nat) :=
  (readU64 h m p).map (fun x => (be64toh h x, p + 8))

/-- Macro `POP_LE8(p, v)`, `v= *p; ++p`. -/
def POP_LE8 (m : List Byte) (p : Nat) : Option (Nat × Nat) :=
  (readU8 m p).map (fun v => (v, p + 1))
/-- Macro `POP_LE16(p, v)`, `v = le16toh(U16(p)); p += 2`. -/
def POP_LE16 (h : Host) (m : List Byte) (p : Nat) : Option (Nat × Nat) :=
  (readU16 h m p).map (fun x => (le16toh h x, p + 2))
/-- Macro `POP_LE32(p, v)`, `v = le32toh(U32(p)); p += 4`. -/
def POP_LE32 (h : Host) (m : List Byte) (p : Nat) : Option (Nat × Nat) :=
  (readU32 h m p).map (fun x => (le32toh h x, p + 4))
/-- Macro `POP_LE64(p, v)`, `v = le64toh(U64(p)); p += 8`. -/
def POP_LE64 (h : Host) (m : List Byte) (p : Nat) : Option (Nat × Nat) :=
  (readU64 h m p).map (fun x => (le64toh h x, p + 8))

/-- Macro `PUSH_BE8(p, v)`, `*p = v; ++p`. -/
def PUSH_BE8 (m : List Byte) (p v : Nat) : Option (List Byte × Nat) :=
  (writeU8 m p v).map (fun m1 => (m1, p + 1))
/-- Macro `PUSH_BE16(p, v)`, `U16(p) = htobe16(v); p += 2`. -/
def PUSH_BE16 (h : Host) (m : List Byte) (p v : Nat) : Option (List Byte × Nat) :=
  (writeU16 h m p (htobe16 h v)).map (fun m1 => (m1, p + 2))
/-- Macro `PUSH_BE32(p, v)`, `U32(p) = htobe32(v); p += 4`. -/
def PUSH_BE32 (h : Host) (m : List Byte) (p v : Nat) : Option (List Byte × Nat) :=
  (writeU32 h m p (htobe32 h v)).map (fun m1 => (m1, p + 4))
/-- Macro `PUSH_BE64(p, v)`, `U64(p) = htobe64(v); p += 8`. -/
def PUSH_BE64 (h : Host) (m : List Byte) (p v : Nat) : Option (List Byte × Nat) :=
  (writeU64 h m p (htobe64 h v)).map (fun m1 => (m1, p + 8))

/-- Macro `PUSH_LE8(p, v)`, `*p = v; ++p`. -/
def PUSH_LE8 (m : List Byte) (p v : Nat) : Option (List Byte × Nat) :=
  (writeU8 m p v).map (fun m1 => (m1, p + 1))
/-- Macro `PUSH_LE16(p, v)`, `U16(p) = htole16(v); p += 2`. -/
def PUSH_LE16 (h : Host) (m : List Byte) (p v : Nat) : Option (List Byte × Nat) :=
  (writeU16 h m p (htole16 h v)).map (fun m1 => (m1, p + 2))
/-- Macro `PUSH_LE32(p, v)`, `U32(p) = htole32(v); p += 4`. -/
def PUSH_LE32 (h : Host) (m : List Byte) (p v : Nat) : Option (List Byte × Nat) :=
  (writeU32 h m p (htole32 h v)).map (fun m1 => (m1, p + 4))
/-- Macro `PUSH_LE64(p, v)`, `U64(p) = htole64(v); p += 8`. -/
def PUSH_LE64 (h : Host) (m : List Byte) (p v : Nat) : Option (List Byte × Nat) :=
  (writeU64 h m p (htole64 h v)).map (fun m1 => (m1, p + 8))

/-! ## Endianness detection (`hendian.h`, lines 95-105) -/

/-- Function `detect_endian`: the union `u` holds a `short` and a `char` at the
same address; after `u.s = 0x1122` the member `u.c` is the first byte of the
object representation of the `short`. -/
def detect_endian (h : Host) : Int :=
  let u : List Byte := toBytes h 2 0x1122
  if u.head? = some 0x11 then BIG_ENDIAN else LITTLE_ENDIAN

/-! ## Generic serialize / deserialize (`hendian.h`, lines 108-140)

A value of type `T` is given by its object representation, the list of its
`sizeof(T)` bytes in address order. The value (for `serialize`) and the object
`*value` (for `deserialize`) are objects distinct from the buffer. -/

/-- Modelled from the spec: `INT_MAX` of `<limits.h>`, the largest value of an
`int`, for the 32-bit `int` of the platforms the header names. -/
def INT_MAX : Nat := 2 ^ 31 - 1

/-- Subtraction of two `size_t` values, which wraps around modulo `2 ^ 64`
(a 64-bit `size_t`). -/
def size_sub (a b : Nat) : Nat := (a % 2 ^ 64 + 2 ^ 64 - b % 2 ^ 64) % 2 ^ 64

/-- Library call `memcpy(dst + d, src + s, n)`: the resulting contents of `dst`. -/
def memcpy (dst : List Byte) (d : Nat) (src : List Byte) (s n : Nat) : Option (List Byte) :=
  match loadBytes src s n with
  | none => none
  | some bs => storeBytes dst d bs

/-- The loop `for (int i = 0; i < size; ++i) { pDst[i] = pSrc[size-i-1]; }` with
`pDst = dst + d` and `pSrc = src + s`, from the state in which the counter is
`i` and the destination holds `dst`; the result is the destination after the
loop. The counter `i` is an `int` that is never negative, so its conversion to
`size_t` in `i < size` and in `size-i-1` leaves it unchanged; the index
`size-i-1` is computed in `size_t`; `++i` overflows when `i` is `INT_MAX`, which
is undefined behaviour. The first argument bounds the number of iterations that
are followed; `none` when it is exceeded, when an access falls outside `src` or
`dst`, or when `++i` overflows. -/
def reverse_loop (size : Nat) (src : List Byte) (s d : Nat) :
    Nat → Nat → List Byte → Option (List Byte)
  | 0, i, dst => if i < size then none else some dst
  | fuel + 1, i, dst =>
    if i < size then
      match src[s + size_sub (size_sub size i) 1]? with
      | none => none
      | some b =>
        if d + i < dst.length then
          if i + 1 ≤ INT_MAX then reverse_loop size src s d fuel (i + 1) (dst.set (d + i) b)
          else none
        else none
    else some dst

/-- Template `serialize(buf, value, host_endian, buf_endian)` with `buf` the
cursor `p` into the buffer `buf`: the buffer after the call and the returned
cursor `buf + size`. -/
def serialize (buf : List Byte) (p : Nat) (value : List Byte)
    (host_endian buf_endian : Int) : Option (List Byte × Nat) :=
  let size := value.length
  let written :=
    if host_endian = buf_endian then memcpy buf p value 0 size
    else reverse_loop size value 0 p size 0 buf
  written.map (fun buf1 => (buf1, p + size))

/-- Template `deserialize(buf, value, host_endian, buf_endian)` with `buf` the
cursor `p` into the buffer `buf` and `value` the present contents of the object
`*value`: the contents of `*value` after the call and the returned cursor
`buf + size`. The buffer is only read. -/
def deserialize (buf : List Byte) (p : Nat) (value : List Byte)
    (host_endian buf_endian : Int) : Option (List Byte × Nat) :=
  let size := value.length
  let written :=
    if host_endian = buf_endian then memcpy value 0 buf p size
    else reverse_loop size buf p 0 size 0 value
  written.map (fun value1 => (value1, p + size))

/-- Call `serialize(buf, value)` with the default arguments
`host_endian = LITTLE_ENDIAN`, `buf_endian = BIG_ENDIAN`. -/
def serialize_default (buf : List Byte) (p : Nat) (value : List Byte) :
    Option (List Byte × Nat) :=
  serialize buf p value LITTLE_ENDIAN BIG_ENDIAN

/-- Call `deserialize(buf, value)` with the default arguments
`host_endian = LITTLE_ENDIAN`, `buf_endian = BIG_ENDIAN`. -/
def deserialize_default (buf : List Byte) (p : Nat) (value : List Byte) :
    Option (List Byte × Nat) :=
  deserialize buf p value LITTLE_ENDIAN BIG_ENDIAN

/-! ## The iterations of the reversal loop -/

/-- The executions of the body of the loop
`for (int i = 0; i < size; ++i) { pDst[i] = pSrc[size-i-1]; }` from the state in
which the counter is `i`, in order: for each one the pair of the destination
index `i` and the source index `size-i-1` as computed in `size_t`. The control
is that of `reverse_loop`: the first argument bounds the number of iterations
that are followed, and the result is `none` when it is exceeded or `++i`
overflows. -/
def reverse_loop_iterations (size : Nat) : Nat → Nat → Option (List (Nat × Nat))
  | 0, i => if i < size then none else some []
  | fuel + 1, i =>
    if i < size then
      if i + 1 ≤ INT_MAX then
        (reverse_loop_iterations size fuel (i + 1)).map
          (fun rest => (i, size_sub (size_sub size i) 1) :: rest)
      else none
    else some []

/-! ## Deserialize on one address space

`deserialize` receives two pointers, `buf` and `value`. The definitions above
take the buffer and the object `*value` as two objects; the ones below place
both in one memory, so that what a call leaves of the buffer can be stated. -/

/-- Library call `memcpy(pDst, pSrc, n)` on a memory that holds both regions:
the memory after the call; `none` when a region is not inside the memory or the
two regions overlap, which is undefined behaviour. -/
def memcpy_mem (mem : List Byte) (pDst pSrc n : Nat) : Option (List Byte) :=
  if pDst + n ≤ pSrc ∨ pSrc + n ≤ pDst then
    match loadBytes mem pSrc n with
    | none => none
    | some bs => storeBytes mem pDst bs
  else none

/-- The loop `for (int i = 0; i < size; ++i) { pDst[i] = pSrc[size-i-1]; }` on a
memory that holds both regions, from the state in which the counter is `i` and
the memory is `mem`; counter, index and failure are as in `reverse_loop`. -/
def reverse_loop_mem (size pSrc pDst : Nat) : Nat → Nat → List Byte → Option (List Byte)
  | 0, i, mem => if i < size then none else some mem
  | fuel + 1, i, mem =>
    if i < size then
      match mem[pSrc + size_sub (size_sub size i) 1]? with
      | none => none
      | some b =>
        if pDst + i < mem.length then
          if i + 1 ≤ INT_MAX then
            reverse_loop_mem size pSrc pDst fuel (i + 1) (mem.set (pDst + i) b)
          else none
        else none
    else some mem

/-- Template `deserialize(buf, value, host_endian, buf_endian)` for a type of
`size` bytes, with the buffer cursor at address `buf` and the object `*value` at
address `value` of the memory `mem`: the memory after the call and the returned
cursor `buf + size`. -/
def deserialize_mem (mem : List Byte) (buf value size : Nat)
    (host_endian buf_endian : Int) : Option (List Byte × Nat) :=
  let written :=
    if host_endian = buf_endian then memcpy_mem mem value buf size
    else reverse_loop_mem size buf value size 0 mem
  written.map (fun mem1 => (mem1, buf + size))

/-! ## Properties of the representation functions -/

theorem toLE_length (n x : Nat) : (toLE n x).length = n := by
  induction n generalizing x with
  | zero => rfl
  | succ n ih => simp [toLE, ih]

theorem ofLE_toLE (n x : Nat) : ofLE (toLE n x) = x % 256 ^ n := by
  induction n generalizing x with
  | zero => simp [toLE, ofLE, Nat.mod_one]
  | succ n ih =>
    simp only [toLE, ofLE, ih]
    rw [pow_succ, Nat.mul_comm (256 ^ n) 256, Nat.mod_mul]

theorem toLE_ofLE (bs : List Byte) : toLE bs.length (ofLE bs) = bs := by
  induction bs with
  | nil => rfl
  | cons b bs ih =>
    have hb : b.val < 256 := b.isLt
    have h1 : (b.val + 256 * ofLE bs) % 256 = b.val := by omega
    have h2 : (b.val + 256 * ofLE bs) / 256 = ofLE bs := by omega
    simp only [List.length_cons, toLE, ofLE, h2, ih]
    congr 1
    exact Fin.ext h1

theorem ofLE_lt (bs : List Byte) : ofLE bs < 256 ^ bs.length := by
  induction bs with
  | nil => simp [ofLE]
  | cons b bs ih =>
    have hb : b.val < 256 := b.isLt
    simp only [ofLE, List.length_cons, pow_succ]
    omega

theorem toLE_mod (n x : Nat) : toLE n (x % 256 ^ n) = toLE n x := by
  have h := toLE_ofLE (toLE n x)
  rw [toLE_length, ofLE_toLE] at h
  exact h

theorem bswap16_eq (x : Nat) : __builtin_bswap16 x = ofLE (toLE 2 x).reverse := by
  simp only [__builtin_bswap16, byteAt, toLE, ofLE, List.reverse_cons, List.reverse_nil,
    List.nil_append, List.cons_append]
  norm_num
  omega

theorem bswap32_eq (x : Nat) : __builtin_bswap32 x = ofLE (toLE 4 x).reverse := by
  simp only [__builtin_bswap32, byteAt, toLE, ofLE, List.reverse_cons, List.reverse_nil,
    List.nil_append, List.cons_append, Nat.div_div_eq_div_mul]
  norm_num
  ring

theorem bswap64_eq (x : Nat) : __builtin_bswap64 x = ofLE (toLE 8 x).reverse := by
  simp only [__builtin_bswap64, byteAt, toLE, ofLE, List.reverse_cons, List.reverse_nil,
    List.nil_append, List.cons_append, Nat.div_div_eq_div_mul]
  norm_num
  ring

theorem toLE_ofLE_of_length (bs : List Byte) (n : Nat) (hn : bs.length = n) :
    toLE n (ofLE bs) = bs := by
  subst hn
  exact toLE_ofLE bs

theorem toLE_ofLE_reverse (n x : Nat) :
    toLE n (ofLE (toLE n x).reverse) = (toLE n x).reverse :=
  toLE_ofLE_of_length _ n (by simp [toLE_length])

theorem ofLE_reverse_twice (n x : Nat) :
    ofLE (toLE n (ofLE (toLE n x).reverse)).reverse = x % 256 ^ n := by
  rw [toLE_ofLE_reverse, List.reverse_reverse, ofLE_toLE]

theorem bswap16_bswap16 (x : Nat) (hx : x < 2 ^ 16) :
    __builtin_bswap16 (__builtin_bswap16 x) = x := by
  rw [bswap16_eq x, bswap16_eq, ofLE_reverse_twice]
  exact Nat.mod_eq_of_lt (by norm_num at hx ⊢; exact hx)

theorem bswap32_bswap32 (x : Nat) (hx : x < 2 ^ 32) :
    __builtin_bswap32 (__builtin_bswap32 x) = x := by
  rw [bswap32_eq x, bswap32_eq, ofLE_reverse_twice]
  exact Nat.mod_eq_of_lt (by norm_num at hx ⊢; exact hx)

theorem bswap64_bswap64 (x : Nat) (hx : x < 2 ^ 64) :
    __builtin_bswap64 (__builtin_bswap64 x) = x := by
  rw [bswap64_eq x, bswap64_eq, ofLE_reverse_twice]
  exact Nat.mod_eq_of_lt (by norm_num at hx ⊢; exact hx)

theorem BYTE_ORDER_little : BYTE_ORDER .little = LITTLE_ENDIAN := rfl

theorem BYTE_ORDER_big_ne : ¬ (BYTE_ORDER .big = LITTLE_ENDIAN) := by decide

/-! ## C1: round trips of the fixed-width conversions -/

/-- C1: for each width 16, 32 and 64, every value of that width and either host
byte order, converting to a target order and back, or back and then to, gives
the value again, for the big-endian and for the little-endian target. -/
theorem conversions_round_trip (h : Host) (x16 x32 x64 : Nat)
    (h16 : x16 < 2 ^ 16) (h32 : x32 < 2 ^ 32) (h64 : x64 < 2 ^ 64) :
    (be16toh h (htobe16 h x16) = x16 ∧ htobe16 h (be16toh h x16) = x16 ∧
      le16toh h (htole16 h x16) = x16 ∧ htole16 h (le16toh h x16) = x16) ∧
    (be32toh h (htobe32 h x32) = x32 ∧ htobe32 h (be32toh h x32) = x32 ∧
      le32toh h (htole32 h x32) = x32 ∧ htole32 h (le32toh h x32) = x32) ∧
    (be64toh h (htobe64 h x64) = x64 ∧ htobe64 h (be64toh h x64) = x64 ∧
      le64toh h (htole64 h x64) = x64 ∧ htole64 h (le64toh h x64) = x64) := by
  have m16 : x16 % 2 ^ 16 = x16 := Nat.mod_eq_of_lt h16
  have m32 : x32 % 2 ^ 32 = x32 := Nat.mod_eq_of_lt h32
  have m64 : x64 % 2 ^ 64 = x64 := Nat.mod_eq_of_lt h64
  cases h
  · simp only [be16toh, htobe16, le16toh, htole16, be32toh, htobe32, le32toh, htole32,
      be64toh, htobe64, le64toh, htole64, htons, ntohs, htonl, ntohl, htonll, ntohll,
      BYTE_ORDER_little, if_true, bswap16_bswap16 x16 h16, bswap32_bswap32 x32 h32,
      bswap64_bswap64 x64 h64, and_self]
  · simp only [be16toh, htobe16, le16toh, htole16, be32toh, htobe32, le32toh, htole32,
      be64toh, htobe64, le64toh, htole64, htons, ntohs, htonl, ntohl, htonll, ntohll,
      BYTE_ORDER_big_ne, if_false, bswap16_bswap16 x16 h16, bswap32_bswap32 x32 h32,
      bswap64_bswap64 x64 h64, m16, m32, m64, and_self]

/-- Witness of C1 at the values 0x1122, 0x12345678 and 0x1122334455667788 on a
little-endian host. -/
theorem conversions_round_trip_witness :
    (be16toh .little (htobe16 .little 0x1122) = 0x1122 ∧
      htobe16 .little (be16toh .little 0x1122) = 0x1122 ∧
      le16toh .little (htole16 .little 0x1122) = 0x1122 ∧
      htole16 .little (le16toh .little 0x1122) = 0x1122) ∧
    (be32toh .little (htobe32 .little 0x12345678) = 0x12345678 ∧
      htobe32 .little (be32toh .little 0x12345678) = 0x12345678 ∧
      le32toh .little (htole32 .little 0x12345678) = 0x12345678 ∧
      htole32 .little (le32toh .little 0x12345678) = 0x12345678) ∧
    (be64toh .little (htobe64 .little 0x1122334455667788) = 0x1122334455667788 ∧
      htobe64 .little (be64toh .little 0x1122334455667788) = 0x1122334455667788 ∧
      le64toh .little (htole64 .little 0x1122334455667788) = 0x1122334455667788 ∧
      htole64 .little (le64toh .little 0x1122334455667788) = 0x1122334455667788) :=
  conversions_round_trip .little 0x1122 0x12345678 0x1122334455667788
    (by decide) (by decide) (by decide)

/-! ## C7: identity on a matching host, byte reversal otherwise -/

/-- C7: for each width 16, 32 and 64 and every value of that width, a conversion
whose target order is the host order returns the value unchanged (the
little-endian conversions on a little-endian host, the big-endian ones on a
big-endian host), and a conversion whose target order differs from the host
order returns the number whose bytes are those of the value in reversed order. -/
theorem conversions_identity_or_reversal (x16 x32 x64 : Nat)
    (h16 : x16 < 2 ^ 16) (h32 : x32 < 2 ^ 32) (h64 : x64 < 2 ^ 64) :
    (htole16 .little x16 = x16 ∧ le16toh .little x16 = x16 ∧
      htobe16 .big x16 = x16 ∧ be16toh .big x16 = x16 ∧
      htole16 .big x16 = ofLE (toLE 2 x16).reverse ∧
      le16toh .big x16 = ofLE (toLE 2 x16).reverse ∧
      htobe16 .little x16 = ofLE (toLE 2 x16).reverse ∧
      be16toh .little x16 = ofLE (toLE 2 x16).reverse) ∧
    (htole32 .little x32 = x32 ∧ le32toh .little x32 = x32 ∧
      htobe32 .big x32 = x32 ∧ be32toh .big x32 = x32 ∧
      htole32 .big x32 = ofLE (toLE 4 x32).reverse ∧
      le32toh .big x32 = ofLE (toLE 4 x32).reverse ∧
      htobe32 .little x32 = ofLE (toLE 4 x32).reverse ∧
      be32toh .little x32 = ofLE (toLE 4 x32).reverse) ∧
    (htole64 .little x64 = x64 ∧ le64toh .little x64 = x64 ∧
      htobe64 .big x64 = x64 ∧ be64toh .big x64 = x64 ∧
      htole64 .big x64 = ofLE (toLE 8 x64).reverse ∧
      le64toh .big x64 = ofLE (toLE 8 x64).reverse ∧
      htobe64 .little x64 = ofLE (toLE 8 x64).reverse ∧
      be64toh .little x64 = ofLE (toLE 8 x64).reverse) := by
  have m16 : x16 % 2 ^ 16 = x16 := Nat.mod_eq_of_lt h16
  have m32 : x32 % 2 ^ 32 = x32 := Nat.mod_eq_of_lt h32
  have m64 : x64 % 2 ^ 64 = x64 := Nat.mod_eq_of_lt h64
  simp only [be16toh, htobe16, le16toh, htole16, be32toh, htobe32, le32toh, htole32,
    be64toh, htobe64, le64toh, htole64, htons, ntohs, htonl, ntohl, htonll, ntohll,
    BYTE_ORDER_little, BYTE_ORDER_big_ne, if_true, if_false, bswap16_eq, bswap32_eq,
    bswap64_eq, m16, m32, m64, and_self]

/-- Witness of C7 at the values 0x1122, 0x12345678 and 0x1122334455667788. -/
theorem conversions_identity_or_reversal_witness :
    htole16 .little 0x1122 = 0x1122 ∧ htobe32 .big 0x12345678 = 0x12345678 ∧
      htobe16 .little 0x1122 = 0x2211 ∧ htole32 .big 0x12345678 = 0x78563412 ∧
      be64toh .little 0x1122334455667788 = 0x8877665544332211 := by
  have key := conversions_identity_or_reversal 0x1122 0x12345678 0x1122334455667788
    (by decide) (by decide) (by decide)
  refine ⟨key.1.1, key.2.1.2.2.1, ?_, ?_, ?_⟩
  · rw [key.1.2.2.2.2.2.2.1]; decide
  · rw [key.2.1.2.2.2.2.1]; decide
  · rw [key.2.2.2.2.2.2.2.2.2]; decide

/-! ## Memory lemmas -/

theorem storeBytes_eq (m : List Byte) (p : Nat) (bs : List Byte)
    (hp : p + bs.length ≤ m.length) :
    storeBytes m p bs = some (m.take p ++ bs ++ m.drop (p + bs.length)) := by
  simp [storeBytes, hp]

theorem stored_length (m : List Byte) (p : Nat) (bs : List Byte)
    (hp : p + bs.length ≤ m.length) :
    (m.take p ++ bs ++ m.drop (p + bs.length)).length = m.length := by
  simp only [List.length_append, List.length_take, List.length_drop]
  omega

theorem stored_getElem_in (m : List Byte) (p : Nat) (bs : List Byte)
    (hp : p + bs.length ≤ m.length) (i : Nat) (hi : i < bs.length) :
    (m.take p ++ bs ++ m.drop (p + bs.length))[p + i]? = bs[i]? := by
  have hl : (m.take p).length = p := by simp only [List.length_take]; omega
  rw [List.append_assoc, List.getElem?_append_right (by omega), hl,
    List.getElem?_append_left (by omega)]
  congr 1
  omega

theorem stored_getElem_below (m : List Byte) (p : Nat) (bs : List Byte)
    (hp : p + bs.length ≤ m.length) (k : Nat) (hk : k < p) :
    (m.take p ++ bs ++ m.drop (p + bs.length))[k]? = m[k]? := by
  have hl : (m.take p).length = p := by simp only [List.length_take]; omega
  rw [List.append_assoc, List.getElem?_append_left (by omega), List.getElem?_take_of_lt hk]

theorem stored_getElem_above (m : List Byte) (p : Nat) (bs : List Byte)
    (hp : p + bs.length ≤ m.length) (k : Nat) (hk : p + bs.length ≤ k) :
    (m.take p ++ bs ++ m.drop (p + bs.length))[k]? = m[k]? := by
  have hl : (m.take p ++ bs).length = p + bs.length := by
    simp only [List.length_append, List.length_take]; omega
  rw [List.getElem?_append_right (by omega), hl, List.getElem?_drop]
  congr 1
  omega

theorem stored_load (m : List Byte) (p : Nat) (bs : List Byte)
    (hp : p + bs.length ≤ m.length) :
    loadBytes (m.take p ++ bs ++ m.drop (p + bs.length)) p bs.length = some bs := by
  have hl : (m.take p).length = p := by simp only [List.length_take]; omega
  have hlen := stored_length m p bs hp
  simp only [loadBytes, hlen, hp, if_true, Option.some.injEq]
  rw [List.append_assoc, List.drop_append_of_le_length (by omega)]
  rw [List.drop_of_length_le (by omega), List.nil_append, List.take_left']
  rfl

theorem loadBytes_length (m : List Byte) (p n : Nat) (bs : List Byte)
    (hl : loadBytes m p n = some bs) : bs.length = n := by
  unfold loadBytes at hl
  split at hl
  · cases hl
    simp only [List.length_take, List.length_drop]
    omega
  · cases hl

theorem toLE_getElem (n x i : Nat) (hi : i < n) :
    ((toLE n x)[i]?).map Fin.val = some (x / 2 ^ (8 * i) % 256) := by
  induction n generalizing x i with
  | zero => omega
  | succ n ih =>
    cases i with
    | zero => simp [toLE]
    | succ i =>
      simp only [toLE, List.getElem?_cons_succ]
      rw [ih (x / 256) i (by omega), Nat.div_div_eq_div_mul]
      congr 3
      rw [Nat.mul_succ, pow_add, Nat.mul_comm]
      norm_num

theorem toLE_reverse_getElem (n x i : Nat) (hi : i < n) :
    (((toLE n x).reverse)[i]?).map Fin.val = some (x / 2 ^ (8 * (n - 1 - i)) % 256) := by
  rw [List.getElem?_reverse (by rw [toLE_length]; exact hi), toLE_length]
  exact toLE_getElem n x (n - 1 - i) (by omega)

/-! ## The conversions on object representations -/

theorem toLE_mod16 (x : Nat) : toLE 2 (x % 2 ^ 16) = toLE 2 x := by
  have e : (2 : Nat) ^ 16 = 256 ^ 2 := by norm_num
  rw [e, toLE_mod]

theorem toBytes_htobe16 (h : Host) (v : Nat) :
    toBytes h 2 (htobe16 h v) = (toLE 2 v).reverse := by
  cases h
  · simp only [toBytes, htobe16, htons, bswap16_eq, toLE_ofLE_reverse]
  · simp only [toBytes, htobe16, htons, toLE_mod16]

theorem toBytes_htole16 (h : Host) (v : Nat) :
    toBytes h 2 (htole16 h v) = toLE 2 v := by
  cases h
  · simp only [toBytes, htole16, BYTE_ORDER_little, if_true]
  · simp only [toBytes, htole16, BYTE_ORDER_big_ne, if_false, bswap16_eq, toLE_ofLE_reverse,
      List.reverse_reverse]

theorem be16toh_ofBytes (h : Host) (bs : List Byte) (hl : bs.length = 2) :
    be16toh h (ofBytes h bs) = ofLE bs.reverse := by
  cases h
  · simp only [ofBytes, be16toh, ntohs, bswap16_eq, toLE_ofLE_of_length bs 2 hl]
  · have hlt := ofLE_lt bs.reverse
    rw [List.length_reverse, hl] at hlt
    simp only [ofBytes, be16toh, ntohs]
    exact Nat.mod_eq_of_lt (by norm_num at hlt ⊢; exact hlt)

theorem le16toh_ofBytes (h : Host) (bs : List Byte) (hl : bs.length = 2) :
    le16toh h (ofBytes h bs) = ofLE bs := by
  cases h
  · simp only [ofBytes, le16toh, BYTE_ORDER_little, if_true]
  · simp only [ofBytes, le16toh, BYTE_ORDER_big_ne, if_false, bswap16_eq,
      toLE_ofLE_of_length bs.reverse 2 (by rw [List.length_reverse]; exact hl),
      List.reverse_reverse]

theorem toLE_mod32 (x : Nat) : toLE 4 (x % 2 ^ 32) = toLE 4 x := by
  have e : (2 : Nat) ^ 32 = 256 ^ 4 := by norm_num
  rw [e, toLE_mod]

theorem toBytes_htobe32 (h : Host) (v : Nat) :
    toBytes h 4 (htobe32 h v) = (toLE 4 v).reverse := by
  cases h
  · simp only [toBytes, htobe32, htonl, bswap32_eq, toLE_ofLE_reverse]
  · simp only [toBytes, htobe32, htonl, toLE_mod32]

theorem toBytes_htole32 (h : Host) (v : Nat) :
    toBytes h 4 (htole32 h v) = toLE 4 v := by
  cases h
  · simp only [toBytes, htole32, BYTE_ORDER_little, if_true]
  · simp only [toBytes, htole32, BYTE_ORDER_big_ne, if_false, bswap32_eq, toLE_ofLE_reverse,
      List.reverse_reverse]

theorem be32toh_ofBytes (h : Host) (bs : List Byte) (hl : bs.length = 4) :
    be32toh h (ofBytes h bs) = ofLE bs.reverse := by
  cases h
  · simp only [ofBytes, be32toh, ntohl, bswap32_eq, toLE_ofLE_of_length bs 4 hl]
  · have hlt := ofLE_lt bs.reverse
    rw [List.length_reverse, hl] at hlt
    simp only [ofBytes, be32toh, ntohl]
    exact Nat.mod_eq_of_lt (by norm_num at hlt ⊢; exact hlt)

theorem le32toh_ofBytes (h : Host) (bs : List Byte) (hl : bs.length = 4) :
    le32toh h (ofBytes h bs) = ofLE bs := by
  cases h
  · simp only [ofBytes, le32toh, BYTE_ORDER_little, if_true]
  · simp only [ofBytes, le32toh, BYTE_ORDER_big_ne, if_false, bswap32_eq,
      toLE_ofLE_of_length bs.reverse 4 (by rw [List.length_reverse]; exact hl),
      List.reverse_reverse]

theorem toLE_mod64 (x : Nat) : toLE 8 (x % 2 ^ 64) = toLE 8 x := by
  have e : (2 : Nat) ^ 64 = 256 ^ 8 := by norm_num
  rw [e, toLE_mod]

theorem toBytes_htobe64 (h : Host) (v : Nat) :
    toBytes h 8 (htobe64 h v) = (toLE 8 v).reverse := by
  cases h
  · simp only [toBytes, htobe64, htonll, bswap64_eq, toLE_ofLE_reverse]
  · simp only [toBytes, htobe64, htonll, toLE_mod64]

theorem toBytes_htole64 (h : Host) (v : Nat) :
    toBytes h 8 (htole64 h v) = toLE 8 v := by
  cases h
  · simp only [toBytes, htole64, BYTE_ORDER_little, if_true]
  · simp only [toBytes, htole64, BYTE_ORDER_big_ne, if_false, bswap64_eq, toLE_ofLE_reverse,
      List.reverse_reverse]

theorem be64toh_ofBytes (h : Host) (bs : List Byte) (hl : bs.length = 8) :
    be64toh h (ofBytes h bs) = ofLE bs.reverse := by
  cases h
  · simp only [ofBytes, be64toh, ntohll, bswap64_eq, toLE_ofLE_of_length bs 8 hl]
  · have hlt := ofLE_lt bs.reverse
    rw [List.length_reverse, hl] at hlt
    simp only [ofBytes, be64toh, ntohll]
    exact Nat.mod_eq_of_lt (by norm_num at hlt ⊢; exact hlt)

theorem le64toh_ofBytes (h : Host) (bs : List Byte) (hl : bs.length = 8) :
    le64toh h (ofBytes h bs) = ofLE bs := by
  cases h
  · simp only [ofBytes, le64toh, BYTE_ORDER_little, if_true]
  · simp only [ofBytes, le64toh, BYTE_ORDER_big_ne, if_false, bswap64_eq,
      toLE_ofLE_of_length bs.reverse 8 (by rw [List.length_reverse]; exact hl),
      List.reverse_reverse]

/-! ## C2: byte order of PUT_BE32 and PUT_LE32 -/

theorem shift_mask_eq (v k : Nat) : (v >>> k) &&& 0xFF = v / 2 ^ k % 256 := by
  rw [Nat.shiftRight_eq_div_pow]
  exact Nat.and_pow_two_sub_one_eq_mod _ 8

theorem PUT_BE32_eq (h : Host) (m : List Byte) (p v : Nat) (hp : p + 4 ≤ m.length) :
    PUT_BE32 h m p v
      = some (m.take p ++ (toLE 4 v).reverse ++ m.drop (p + (toLE 4 v).reverse.length)) := by
  rw [PUT_BE32, writeU32, toBytes_htobe32]
  exact storeBytes_eq m p _ (by rw [List.length_reverse, toLE_length]; exact hp)

theorem PUT_LE32_eq (h : Host) (m : List Byte) (p v : Nat) (hp : p + 4 ≤ m.length) :
    PUT_LE32 h m p v = some (m.take p ++ toLE 4 v ++ m.drop (p + (toLE 4 v).length)) := by
  rw [PUT_LE32, writeU32, toBytes_htole32]
  exact storeBytes_eq m p _ (by rw [toLE_length]; exact hp)

/-- C2: on either host and for every value `v`, `PUT_BE32(p, v)` succeeds on a
buffer with four bytes at `p` and leaves byte `i` of them equal to
`(v >> (8*(3-i))) & 0xFF`, and `PUT_LE32(p, v)` leaves byte `i` equal to
`(v >> (8*i)) & 0xFF`; for `v = 0x12345678` the four bytes are
`12 34 56 78` and `78 56 34 12`. -/
theorem PUT32_byte_order (h : Host) (m : List Byte) (p v : Nat) (hp : p + 4 ≤ m.length) :
    ∃ mb ml, PUT_BE32 h m p v = some mb ∧ PUT_LE32 h m p v = some ml ∧
      (∀ i, i < 4 → (mb[p + i]?).map Fin.val = some ((v >>> (8 * (3 - i))) &&& 0xFF)) ∧
      (∀ i, i < 4 → (ml[p + i]?).map Fin.val = some ((v >>> (8 * i)) &&& 0xFF)) ∧
      (v = 0x12345678 → loadBytes mb p 4 = some [0x12, 0x34, 0x56, 0x78] ∧
        loadBytes ml p 4 = some [0x78, 0x56, 0x34, 0x12]) := by
  have lb : (toLE 4 v).reverse.length = 4 := by rw [List.length_reverse, toLE_length]
  have ll : (toLE 4 v).length = 4 := toLE_length 4 v
  refine ⟨_, _, PUT_BE32_eq h m p v hp, PUT_LE32_eq h m p v hp, ?_, ?_, ?_⟩
  · intro i hi
    rw [stored_getElem_in m p _ (by rw [lb]; exact hp) i (by rw [lb]; exact hi),
      toLE_reverse_getElem 4 v i hi, shift_mask_eq]
  · intro i hi
    rw [stored_getElem_in m p _ (by rw [ll]; exact hp) i (by rw [ll]; exact hi),
      toLE_getElem 4 v i hi, shift_mask_eq]
  · intro hv
    subst hv
    have eb : (toLE 4 0x12345678).reverse = [0x12, 0x34, 0x56, 0x78] := by decide
    have el : toLE 4 0x12345678 = [0x78, 0x56, 0x34, 0x12] := by decide
    rw [eb, el]
    exact ⟨stored_load m p [0x12, 0x34, 0x56, 0x78] hp,
      stored_load m p [0x78, 0x56, 0x34, 0x12] hp⟩

/-- Witness of C2: the value 0x12345678 put at offset 1 of a six-byte buffer on a
big-endian host. -/
theorem PUT32_byte_order_witness :
    ∃ mb ml, PUT_BE32 .big [0, 0, 0, 0, 0, 0] 1 0x12345678 = some mb ∧
      PUT_LE32 .big [0, 0, 0, 0, 0, 0] 1 0x12345678 = some ml ∧
      (∀ i, i < 4 → (mb[1 + i]?).map Fin.val = some ((0x12345678 >>> (8 * (3 - i))) &&& 0xFF)) ∧
      (∀ i, i < 4 → (ml[1 + i]?).map Fin.val = some ((0x12345678 >>> (8 * i)) &&& 0xFF)) ∧
      (0x12345678 = 0x12345678 → loadBytes mb 1 4 = some [0x12, 0x34, 0x56, 0x78] ∧
        loadBytes ml 1 4 = some [0x78, 0x56, 0x34, 0x12]) :=
  PUT32_byte_order .big [0, 0, 0, 0, 0, 0] 1 0x12345678 (by decide)

/-! ## C8: the value read by GET and the PUT / GET round trip -/

theorem ofLE_eq_sum (bs : List Byte) :
    ofLE bs = ∑ i ∈ Finset.range bs.length, (bs.getD i 0).val * 256 ^ i := by
  induction bs with
  | nil => simp [ofLE]
  | cons b bs ih =>
    rw [List.length_cons, Finset.sum_range_succ', ofLE, ih, Finset.mul_sum]
    simp only [List.getD_cons_succ, List.getD_cons_zero, pow_zero, mul_one, pow_succ]
    rw [Nat.add_comm]
    congr 1
    apply Finset.sum_congr rfl
    intro i _
    ring

theorem ofLE_reverse_eq_sum (bs : List Byte) :
    ofLE bs.reverse
      = ∑ i ∈ Finset.range bs.length, (bs.getD i 0).val * 256 ^ (bs.length - 1 - i) := by
  rw [ofLE_eq_sum, List.length_reverse,
    ← Finset.sum_range_reflect (fun i => (bs.getD i 0).val * 256 ^ (bs.length - 1 - i))]
  apply Finset.sum_congr rfl
  intro j hj
  have hj1 : j < bs.length := Finset.mem_range.mp hj
  have e : bs.length - 1 - (bs.length - 1 - j) = j := by omega
  simp only [e, List.getD_eq_getElem?_getD]
  rw [List.getElem?_reverse hj1]

theorem loadBytes_getD (m : List Byte) (p n : Nat) (bs : List Byte)
    (hl : loadBytes m p n = some bs) (i : Nat) (hi : i < n) :
    bs.getD i 0 = m.getD (p + i) 0 := by
  unfold loadBytes at hl
  split at hl
  · cases hl
    simp only [List.getD_eq_getElem?_getD, List.getElem?_take_of_lt hi, List.getElem?_drop]
  · cases hl

theorem loadBytes_some (m : List Byte) (p n : Nat) (hp : p + n ≤ m.length) :
    loadBytes m p n = some ((m.drop p).take n) := by
  simp [loadBytes, hp]

theorem loaded_le_sum (m : List Byte) (p n : Nat) (bs : List Byte)
    (hl : loadBytes m p n = some bs) :
    ofLE bs = ∑ i ∈ Finset.range n, (m.getD (p + i) 0).val * 256 ^ i := by
  have hn := loadBytes_length m p n bs hl
  rw [ofLE_eq_sum, hn]
  apply Finset.sum_congr rfl
  intro i hi
  rw [loadBytes_getD m p n bs hl i (Finset.mem_range.mp hi)]

theorem loaded_be_sum (m : List Byte) (p n : Nat) (bs : List Byte)
    (hl : loadBytes m p n = some bs) :
    ofLE bs.reverse = ∑ i ∈ Finset.range n, (m.getD (p + i) 0).val * 256 ^ (n - 1 - i) := by
  have hn := loadBytes_length m p n bs hl
  rw [ofLE_reverse_eq_sum, hn]
  apply Finset.sum_congr rfl
  intro i hi
  rw [loadBytes_getD m p n bs hl i (Finset.mem_range.mp hi)]

theorem GET_BE16_of_load (h : Host) (m : List Byte) (p : Nat) (bs : List Byte)
    (hl : loadBytes m p 2 = some bs) : GET_BE16 h m p = some (ofLE bs.reverse) := by
  simp only [GET_BE16, readU16, hl, Option.map_some']
  rw [be16toh_ofBytes h bs (loadBytes_length m p 2 bs hl)]

theorem GET_LE16_of_load (h : Host) (m : List Byte) (p : Nat) (bs : List Byte)
    (hl : loadBytes m p 2 = some bs) : GET_LE16 h m p = some (ofLE bs) := by
  simp only [GET_LE16, readU16, hl, Option.map_some']
  rw [le16toh_ofBytes h bs (loadBytes_length m p 2 bs hl)]

theorem PUT_GET_BE16 (h : Host) (m : List Byte) (p v : Nat) (hp : p + 2 ≤ m.length)
    (hv : v < 2 ^ 16) : ∃ m1, PUT_BE16 h m p v = some m1 ∧ GET_BE16 h m1 p = some v := by
  have lb : (toLE 2 v).reverse.length = 2 := by rw [List.length_reverse, toLE_length]
  have hp1 : p + (toLE 2 v).reverse.length ≤ m.length := by rw [lb]; exact hp
  have hld := stored_load m p (toLE 2 v).reverse hp1
  rw [lb] at hld
  refine ⟨_, ?_, GET_BE16_of_load h _ p _ hld |>.trans ?_⟩
  · rw [PUT_BE16, writeU16, toBytes_htobe16]
    exact storeBytes_eq m p _ hp1
  · rw [List.reverse_reverse, ofLE_toLE]
    exact congrArg some (Nat.mod_eq_of_lt (by norm_num at hv ⊢; exact hv))

theorem PUT_GET_LE16 (h : Host) (m : List Byte) (p v : Nat) (hp : p + 2 ≤ m.length)
    (hv : v < 2 ^ 16) : ∃ m1, PUT_LE16 h m p v = some m1 ∧ GET_LE16 h m1 p = some v := by
  have lb : (toLE 2 v).length = 2 := toLE_length 2 v
  have hp1 : p + (toLE 2 v).length ≤ m.length := by rw [lb]; exact hp
  have hld := stored_load m p (toLE 2 v) hp1
  rw [lb] at hld
  refine ⟨_, ?_, GET_LE16_of_load h _ p _ hld |>.trans ?_⟩
  · rw [PUT_LE16, writeU16, toBytes_htole16]
    exact storeBytes_eq m p _ hp1
  · rw [ofLE_toLE]
    exact congrArg some (Nat.mod_eq_of_lt (by norm_num at hv ⊢; exact hv))

theorem GET_BE32_of_load (h : Host) (m : List Byte) (p : Nat) (bs : List Byte)
    (hl : loadBytes m p 4 = some bs) : GET_BE32 h m p = some (ofLE bs.reverse) := by
  simp only [GET_BE32, readU32, hl, Option.map_some']
  rw [be32toh_ofBytes h bs (loadBytes_length m p 4 bs hl)]

theorem GET_LE32_of_load (h : Host) (m : List Byte) (p : Nat) (bs : List Byte)
    (hl : loadBytes m p 4 = some bs) : GET_LE32 h m p = some (ofLE bs) := by
  simp only [GET_LE32, readU32, hl, Option.map_some']
  rw [le32toh_ofBytes h bs (loadBytes_length m p 4 bs hl)]

theorem PUT_GET_BE32 (h : Host) (m : List Byte) (p v : Nat) (hp : p + 4 ≤ m.length)
    (hv : v < 2 ^ 32) : ∃ m1, PUT_BE32 h m p v = some m1 ∧ GET_BE32 h m1 p = some v := by
  have lb : (toLE 4 v).reverse.length = 4 := by rw [List.length_reverse, toLE_length]
  have hp1 : p + (toLE 4 v).reverse.length ≤ m.length := by rw [lb]; exact hp
  have hld := stored_load m p (toLE 4 v).reverse hp1
  rw [lb] at hld
  refine ⟨_, ?_, GET_BE32_of_load h _ p _ hld |>.trans ?_⟩
  · rw [PUT_BE32, writeU32, toBytes_htobe32]
    exact storeBytes_eq m p _ hp1
  · rw [List.reverse_reverse, ofLE_toLE]
    exact congrArg some (Nat.mod_eq_of_lt (by norm_num at hv ⊢; exact hv))

theorem PUT_GET_LE32 (h : Host) (m : List Byte) (p v : Nat) (hp : p + 4 ≤ m.length)
    (hv : v < 2 ^ 32) : ∃ m1, PUT_LE32 h m p v = some m1 ∧ GET_LE32 h m1 p = some v := by
  have lb : (toLE 4 v).length = 4 := toLE_length 4 v
  have hp1 : p + (toLE 4 v).length ≤ m.length := by rw [lb]; exact hp
  have hld := stored_load m p (toLE 4 v) hp1
  rw [lb] at hld
  refine ⟨_, ?_, GET_LE32_of_load h _ p _ hld |>.trans ?_⟩
  · rw [PUT_LE32, writeU32, toBytes_htole32]
    exact storeBytes_eq m p _ hp1
  · rw [ofLE_toLE]
    exact congrArg some (Nat.mod_eq_of_lt (by norm_num at hv ⊢; exact hv))

theorem GET_BE64_of_load (h : Host) (m : List Byte) (p : Nat) (bs : List Byte)
    (hl : loadBytes m p 8 = some bs) : GET_BE64 h m p = some (ofLE bs.reverse) := by
  simp only [GET_BE64, readU64, hl, Option.map_some']
  rw [be64toh_ofBytes h bs (loadBytes_length m p 8 bs hl)]

theorem GET_LE64_of_load (h : Host) (m : List Byte) (p : Nat) (bs : List Byte)
    (hl : loadBytes m p 8 = some bs) : GET_LE64 h m p = some (ofLE bs) := by
  simp only [GET_LE64, readU64, hl, Option.map_some']
  rw [le64toh_ofBytes h bs (loadBytes_length m p 8 bs hl)]

theorem PUT_GET_BE64 (h : Host) (m : List Byte) (p v : Nat) (hp : p + 8 ≤ m.length)
    (hv : v < 2 ^ 64) : ∃ m1, PUT_BE64 h m p v = some m1 ∧ GET_BE64 h m1 p = some v := by
  have lb : (toLE 8 v).reverse.length = 8 := by rw [List.length_reverse, toLE_length]
  have hp1 : p + (toLE 8 v).reverse.length ≤ m.length := by rw [lb]; exact hp
  have hld := stored_load m p (toLE 8 v).reverse hp1
  rw [lb] at hld
  refine ⟨_, ?_, GET_BE64_of_load h _ p _ hld |>.trans ?_⟩
  · rw [PUT_BE64, writeU64, toBytes_htobe64]
    exact storeBytes_eq m p _ hp1
  · rw [List.reverse_reverse, ofLE_toLE]
    exact congrArg some (Nat.mod_eq_of_lt (by norm_num at hv ⊢; exact hv))

theorem PUT_GET_LE64 (h : Host) (m : List Byte) (p v : Nat) (hp : p + 8 ≤ m.length)
    (hv : v < 2 ^ 64) : ∃ m1, PUT_LE64 h m p v = some m1 ∧ GET_LE64 h m1 p = some v := by
  have lb : (toLE 8 v).length = 8 := toLE_length 8 v
  have hp1 : p + (toLE 8 v).length ≤ m.length := by rw [lb]; exact hp
  have hld := stored_load m p (toLE 8 v) hp1
  rw [lb] at hld
  refine ⟨_, ?_, GET_LE64_of_load h _ p _ hld |>.trans ?_⟩
  · rw [PUT_LE64, writeU64, toBytes_htole64]
    exact storeBytes_eq m p _ hp1
  · rw [ofLE_toLE]
    exact congrArg some (Nat.mod_eq_of_lt (by norm_num at hv ⊢; exact hv))

/-- C8: on either host and for each width 16, 32 and 64, `GET_BE` of a buffer
that holds the bytes `b[0..W/8)` at `p` returns the sum of `b[i] * 256^(W/8-1-i)`
and `GET_LE` returns the sum of `b[i] * 256^i`, neither depending on the host;
and for every value `v` of the width, `GET_BE` after `PUT_BE` of `v` returns `v`
and `GET_LE` after `PUT_LE` of `v` returns `v`. -/
theorem GET_value_and_round_trip (h : Host) (m : List Byte) (p : Nat) :
    (p + 2 ≤ m.length →
      GET_BE16 h m p
        = some (∑ i ∈ Finset.range 2, (m.getD (p + i) 0).val * 256 ^ (2 - 1 - i)) ∧
      GET_LE16 h m p = some (∑ i ∈ Finset.range 2, (m.getD (p + i) 0).val * 256 ^ i) ∧
      ∀ v, v < 2 ^ 16 →
        (∃ m1, PUT_BE16 h m p v = some m1 ∧ GET_BE16 h m1 p = some v) ∧
        (∃ m1, PUT_LE16 h m p v = some m1 ∧ GET_LE16 h m1 p = some v)) ∧
    (p + 4 ≤ m.length →
      GET_BE32 h m p
        = some (∑ i ∈ Finset.range 4, (m.getD (p + i) 0).val * 256 ^ (4 - 1 - i)) ∧
      GET_LE32 h m p = some (∑ i ∈ Finset.range 4, (m.getD (p + i) 0).val * 256 ^ i) ∧
      ∀ v, v < 2 ^ 32 →
        (∃ m1, PUT_BE32 h m p v = some m1 ∧ GET_BE32 h m1 p = some v) ∧
        (∃ m1, PUT_LE32 h m p v = some m1 ∧ GET_LE32 h m1 p = some v)) ∧
    (p + 8 ≤ m.length →
      GET_BE64 h m p
        = some (∑ i ∈ Finset.range 8, (m.getD (p + i) 0).val * 256 ^ (8 - 1 - i)) ∧
      GET_LE64 h m p = some (∑ i ∈ Finset.range 8, (m.getD (p + i) 0).val * 256 ^ i) ∧
      ∀ v, v < 2 ^ 64 →
        (∃ m1, PUT_BE64 h m p v = some m1 ∧ GET_BE64 h m1 p = some v) ∧
        (∃ m1, PUT_LE64 h m p v = some m1 ∧ GET_LE64 h m1 p = some v)) := by
  refine ⟨?_, ?_, ?_⟩
  · intro hp
    have hl := loadBytes_some m p 2 hp
    refine ⟨?_, ?_, fun v hv => ⟨PUT_GET_BE16 h m p v hp hv, PUT_GET_LE16 h m p v hp hv⟩⟩
    · rw [GET_BE16_of_load h m p _ hl, loaded_be_sum m p 2 _ hl]
    · rw [GET_LE16_of_load h m p _ hl, loaded_le_sum m p 2 _ hl]
  · intro hp
    have hl := loadBytes_some m p 4 hp
    refine ⟨?_, ?_, fun v hv => ⟨PUT_GET_BE32 h m p v hp hv, PUT_GET_LE32 h m p v hp hv⟩⟩
    · rw [GET_BE32_of_load h m p _ hl, loaded_be_sum m p 4 _ hl]
    · rw [GET_LE32_of_load h m p _ hl, loaded_le_sum m p 4 _ hl]
  · intro hp
    have hl := loadBytes_some m p 8 hp
    refine ⟨?_, ?_, fun v hv => ⟨PUT_GET_BE64 h m p v hp hv, PUT_GET_LE64 h m p v hp hv⟩⟩
    · rw [GET_BE64_of_load h m p _ hl, loaded_be_sum m p 8 _ hl]
    · rw [GET_LE64_of_load h m p _ hl, loaded_le_sum m p 8 _ hl]

/-- Witness of C8: the 32-bit part on a big-endian host, for the buffer
`12 34 56 78 9a` read at offset 1. -/
theorem GET_value_and_round_trip_witness :
    GET_BE32 .big [0x12, 0x34, 0x56, 0x78, 0x9a] 1
        = some (∑ i ∈ Finset.range 4,
            (([0x12, 0x34, 0x56, 0x78, 0x9a] : List Byte).getD (1 + i) 0).val * 256 ^ (4 - 1 - i)) ∧
      GET_LE32 .big [0x12, 0x34, 0x56, 0x78, 0x9a] 1
        = some (∑ i ∈ Finset.range 4,
            (([0x12, 0x34, 0x56, 0x78, 0x9a] : List Byte).getD (1 + i) 0).val * 256 ^ i) ∧
      ∀ v, v < 2 ^ 32 →
        (∃ m1, PUT_BE32 .big [0x12, 0x34, 0x56, 0x78, 0x9a] 1 v = some m1 ∧
          GET_BE32 .big m1 1 = some v) ∧
        (∃ m1, PUT_LE32 .big [0x12, 0x34, 0x56, 0x78, 0x9a] 1 v = some m1 ∧
          GET_LE32 .big m1 1 = some v) :=
  (GET_value_and_round_trip .big [0x12, 0x34, 0x56, 0x78, 0x9a] 1).2.1 (by decide)

/-! ## C6: push then pop -/

theorem PUSH_POP_8 (m : List Byte) (p v : Nat) (hp : p + 1 ≤ m.length) (hv : v < 2 ^ 8) :
    ∃ m1, writeU8 m p v = some m1 ∧ readU8 m1 p = some v := by
  have hp1 : p + (toLE 1 v).length ≤ m.length := by rw [toLE_length]; exact hp
  have hld := stored_load m p (toLE 1 v) hp1
  rw [toLE_length] at hld
  refine ⟨_, storeBytes_eq m p _ hp1, ?_⟩
  rw [toLE_length]
  simp only [readU8, hld, Option.map_some', ofLE_toLE, pow_one]
  exact congrArg some (Nat.mod_eq_of_lt (by norm_num at hv ⊢; exact hv))

theorem PUSH_POP_BE16 (h : Host) (m : List Byte) (p v : Nat) (hp : p + 2 ≤ m.length)
    (hv : v < 2 ^ 16) :
    ∃ m1, PUSH_BE16 h m p v = some (m1, p + 2) ∧ POP_BE16 h m1 p = some (v, p + 2) := by
  obtain ⟨m1, h1, h2⟩ := PUT_GET_BE16 h m p v hp hv
  refine ⟨m1, ?_, ?_⟩
  · simp only [PUT_BE16] at h1
    simp only [PUSH_BE16, h1, Option.map_some']
  · simp only [GET_BE16, Option.map_eq_some'] at h2
    obtain ⟨x, hx, hxv⟩ := h2
    simp only [POP_BE16, hx, Option.map_some', hxv]

theorem PUSH_POP_LE16 (h : Host) (m : List Byte) (p v : Nat) (hp : p + 2 ≤ m.length)
    (hv : v < 2 ^ 16) :
    ∃ m1, PUSH_LE16 h m p v = some (m1, p + 2) ∧ POP_LE16 h m1 p = some (v, p + 2) := by
  obtain ⟨m1, h1, h2⟩ := PUT_GET_LE16 h m p v hp hv
  refine ⟨m1, ?_, ?_⟩
  · simp only [PUT_LE16] at h1
    simp only [PUSH_LE16, h1, Option.map_some']
  · simp only [GET_LE16, Option.map_eq_some'] at h2
    obtain ⟨x, hx, hxv⟩ := h2
    simp only [POP_LE16, hx, Option.map_some', hxv]

theorem PUSH_POP_BE32 (h : Host) (m : List Byte) (p v : Nat) (hp : p + 4 ≤ m.length)
    (hv : v < 2 ^ 32) :
    ∃ m1, PUSH_BE32 h m p v = some (m1, p + 4) ∧ POP_BE32 h m1 p = some (v, p + 4) := by
  obtain ⟨m1, h1, h2⟩ := PUT_GET_BE32 h m p v hp hv
  refine ⟨m1, ?_, ?_⟩
  · simp only [PUT_BE32] at h1
    simp only [PUSH_BE32, h1, Option.map_some']
  · simp only [GET_BE32, Option.map_eq_some'] at h2
    obtain ⟨x, hx, hxv⟩ := h2
    simp only [POP_BE32, hx, Option.map_some', hxv]

theorem PUSH_POP_LE32 (h : Host) (m : List Byte) (p v : Nat) (hp : p + 4 ≤ m.length)
    (hv : v < 2 ^ 32) :
    ∃ m1, PUSH_LE32 h m p v = some (m1, p + 4) ∧ POP_LE32 h m1 p = some (v, p + 4) := by
  obtain ⟨m1, h1, h2⟩ := PUT_GET_LE32 h m p v hp hv
  refine ⟨m1, ?_, ?_⟩
  · simp only [PUT_LE32] at h1
    simp only [PUSH_LE32, h1, Option.map_some']
  · simp only [GET_LE32, Option.map_eq_some'] at h2
    obtain ⟨x, hx, hxv⟩ := h2
    simp only [POP_LE32, hx, Option.map_some', hxv]

theorem PUSH_POP_BE64 (h : Host) (m : List Byte) (p v : Nat) (hp : p + 8 ≤ m.length)
    (hv : v < 2 ^ 64) :
    ∃ m1, PUSH_BE64 h m p v = some (m1, p + 8) ∧ POP_BE64 h m1 p = some (v, p + 8) := by
  obtain ⟨m1, h1, h2⟩ := PUT_GET_BE64 h m p v hp hv
  refine ⟨m1, ?_, ?_⟩
  · simp only [PUT_BE64] at h1
    simp only [PUSH_BE64, h1, Option.map_some']
  · simp only [GET_BE64, Option.map_eq_some'] at h2
    obtain ⟨x, hx, hxv⟩ := h2
    simp only [POP_BE64, hx, Option.map_some', hxv]

theorem PUSH_POP_LE64 (h : Host) (m : List Byte) (p v : Nat) (hp : p + 8 ≤ m.length)
    (hv : v < 2 ^ 64) :
    ∃ m1, PUSH_LE64 h m p v = some (m1, p + 8) ∧ POP_LE64 h m1 p = some (v, p + 8) := by
  obtain ⟨m1, h1, h2⟩ := PUT_GET_LE64 h m p v hp hv
  refine ⟨m1, ?_, ?_⟩
  · simp only [PUT_LE64] at h1
    simp only [PUSH_LE64, h1, Option.map_some']
  · simp only [GET_LE64, Option.map_eq_some'] at h2
    obtain ⟨x, hx, hxv⟩ := h2
    simp only [POP_LE64, hx, Option.map_some', hxv]

/-- C6: on either host, for each width 8, 16, 32 and 64, either byte order and
every value `v` of the width, a push of `v` at cursor `p` followed by a pop of
the same width and order from the same cursor `p` yields `v`, and each of the two
statements leaves its cursor at `p` plus the width in bytes (1, 2, 4 or 8). -/
theorem PUSH_POP_round_trip (h : Host) (m : List Byte) (p : Nat) :
    (p + 1 ≤ m.length → ∀ v, v < 2 ^ 8 →
      (∃ m1, PUSH_BE8 m p v = some (m1, p + 1) ∧ POP_BE8 m1 p = some (v, p + 1)) ∧
      (∃ m1, PUSH_LE8 m p v = some (m1, p + 1) ∧ POP_LE8 m1 p = some (v, p + 1))) ∧
    (p + 2 ≤ m.length → ∀ v, v < 2 ^ 16 →
      (∃ m1, PUSH_BE16 h m p v = some (m1, p + 2) ∧ POP_BE16 h m1 p = some (v, p + 2)) ∧
      (∃ m1, PUSH_LE16 h m p v = some (m1, p + 2) ∧ POP_LE16 h m1 p = some (v, p + 2))) ∧
    (p + 4 ≤ m.length → ∀ v, v < 2 ^ 32 →
      (∃ m1, PUSH_BE32 h m p v = some (m1, p + 4) ∧ POP_BE32 h m1 p = some (v, p + 4)) ∧
      (∃ m1, PUSH_LE32 h m p v = some (m1, p + 4) ∧ POP_LE32 h m1 p = some (v, p + 4))) ∧
    (p + 8 ≤ m.length → ∀ v, v < 2 ^ 64 →
      (∃ m1, PUSH_BE64 h m p v = some (m1, p + 8) ∧ POP_BE64 h m1 p = some (v, p + 8)) ∧
      (∃ m1, PUSH_LE64 h m p v = some (m1, p + 8) ∧ POP_LE64 h m1 p = some (v, p + 8))) := by
  refine ⟨?_, ?_, ?_, ?_⟩
  · intro hp v hv
    obtain ⟨m1, h1, h2⟩ := PUSH_POP_8 m p v hp hv
    exact ⟨⟨m1, by simp only [PUSH_BE8, h1, Option.map_some'],
        by simp only [POP_BE8, h2, Option.map_some']⟩,
      ⟨m1, by simp only [PUSH_LE8, h1, Option.map_some'],
        by simp only [POP_LE8, h2, Option.map_some']⟩⟩
  · exact fun hp v hv => ⟨PUSH_POP_BE16 h m p v hp hv, PUSH_POP_LE16 h m p v hp hv⟩
  · exact fun hp v hv => ⟨PUSH_POP_BE32 h m p v hp hv, PUSH_POP_LE32 h m p v hp hv⟩
  · exact fun hp v hv => ⟨PUSH_POP_BE64 h m p v hp hv, PUSH_POP_LE64 h m p v hp hv⟩

/-- Witness of C6: the 8-bit value 0xab and the 64-bit value 0x1122334455667788
pushed at offset 1 of a ten-byte buffer on a little-endian host. -/
theorem PUSH_POP_round_trip_witness :
    ((∃ m1, PUSH_BE8 [0, 0, 0, 0, 0, 0, 0, 0, 0, 0] 1 0xab = some (m1, 1 + 1) ∧
        POP_BE8 m1 1 = some (0xab, 1 + 1)) ∧
      (∃ m1, PUSH_LE8 [0, 0, 0, 0, 0, 0, 0, 0, 0, 0] 1 0xab = some (m1, 1 + 1) ∧
        POP_LE8 m1 1 = some (0xab, 1 + 1))) ∧
    ((∃ m1, PUSH_BE64 .little [0, 0, 0, 0, 0, 0, 0, 0, 0, 0] 1 0x1122334455667788
          = some (m1, 1 + 8) ∧
        POP_BE64 .little m1 1 = some (0x1122334455667788, 1 + 8)) ∧
      (∃ m1, PUSH_LE64 .little [0, 0, 0, 0, 0, 0, 0, 0, 0, 0] 1 0x1122334455667788
          = some (m1, 1 + 8) ∧
        POP_LE64 .little m1 1 = some (0x1122334455667788, 1 + 8))) :=
  ⟨(PUSH_POP_round_trip .little [0, 0, 0, 0, 0, 0, 0, 0, 0, 0] 1).1 (by decide) 0xab
      (by decide),
    (PUSH_POP_round_trip .little [0, 0, 0, 0, 0, 0, 0, 0, 0, 0] 1).2.2.2 (by decide)
      0x1122334455667788 (by decide)⟩

/-! ## The reversal loop and `memcpy` -/

theorem size_sub_index (size i : Nat) (hs : size < 2 ^ 64) (hi : i < size) :
    size_sub (size_sub size i) 1 = size - i - 1 := by
  unfold size_sub
  norm_num at hs ⊢
  omega

theorem reverse_loop_spec (size : Nat) (hs : size ≤ INT_MAX) (src : List Byte) (s d : Nat)
    (hsrc : s + size ≤ src.length) :
    ∀ (fuel i : Nat) (dst : List Byte), i ≤ size → size ≤ i + fuel → d + size ≤ dst.length →
      ∃ r, reverse_loop size src s d fuel i dst = some r ∧ r.length = dst.length ∧
        ∀ k, r[k]? = if d + i ≤ k ∧ k < d + size then src[s + (size - 1 - (k - d))]?
          else dst[k]? := by
  intro fuel
  induction fuel with
  | zero =>
    intro i dst hi hf _
    have : ¬ i < size := by omega
    refine ⟨dst, by simp only [reverse_loop, this, if_false], rfl, ?_⟩
    intro k
    have : ¬ (d + i ≤ k ∧ k < d + size) := by omega
    simp only [this, if_false]
  | succ fuel ih =>
    intro i dst hi hf hd
    by_cases hlt : i < size
    · have hs64 : size < 2 ^ 64 := by
        unfold INT_MAX at hs
        norm_num at hs ⊢
        omega
      have hinc : i + 1 ≤ INT_MAX := by omega
      have hidx : s + (size - i - 1) < src.length := by omega
      have hget : src[s + (size - i - 1)]? = some (src[s + (size - i - 1)]) :=
        List.getElem?_eq_getElem hidx
      have hdi : d + i < dst.length := by omega
      obtain ⟨r, hr, hlen, hk⟩ := ih (i + 1) (dst.set (d + i) (src[s + (size - i - 1)]))
        (by omega) (by omega) (by rw [List.length_set]; exact hd)
      refine ⟨r, ?_, ?_, ?_⟩
      · simp only [reverse_loop, hlt, if_true, size_sub_index size i hs64 hlt, hget, hdi, hinc]
        exact hr
      · rw [hlen, List.length_set]
      · intro k
        rw [hk k]
        by_cases hkeq : k = d + i
        · subst hkeq
          have h1 : ¬ (d + (i + 1) ≤ d + i ∧ d + i < d + size) := by omega
          have h2 : d + i ≤ d + i ∧ d + i < d + size := by omega
          have h3 : size - 1 - (d + i - d) = size - i - 1 := by omega
          rw [if_neg h1, if_pos h2, h3, hget, List.getElem?_set_self hdi]
        · by_cases hin : d + i ≤ k ∧ k < d + size
          · have h1 : d + (i + 1) ≤ k ∧ k < d + size := by omega
            rw [if_pos h1, if_pos hin]
          · have h1 : ¬ (d + (i + 1) ≤ k ∧ k < d + size) := by omega
            rw [if_neg h1, if_neg hin, List.getElem?_set_ne (fun e => hkeq e.symm)]
    · refine ⟨dst, by simp only [reverse_loop, hlt, if_false], rfl, ?_⟩
      intro k
      have : ¬ (d + i ≤ k ∧ k < d + size) := by omega
      simp only [this, if_false]

theorem reverse_loop_none (size : Nat) (hs : INT_MAX < size) (src : List Byte) (s d : Nat) :
    ∀ (fuel i : Nat) (dst : List Byte), i ≤ INT_MAX →
      reverse_loop size src s d fuel i dst = none := by
  intro fuel
  induction fuel with
  | zero =>
    intro i dst hi
    have hlt : i < size := by omega
    simp only [reverse_loop, if_pos hlt]
  | succ fuel ih =>
    intro i dst hi
    have hlt : i < size := by omega
    simp only [reverse_loop, if_pos hlt]
    split
    · rfl
    · split
      · split
        · next hinc => exact ih (i + 1) _ hinc
        · rfl
      · rfl

theorem memcpy_into_buffer (buf : List Byte) (p : Nat) (value : List Byte)
    (hp : p + value.length ≤ buf.length) :
    memcpy buf p value 0 value.length
      = some (buf.take p ++ value ++ buf.drop (p + value.length)) := by
  have hl : loadBytes value 0 value.length = some value := by
    simp [loadBytes]
  simp only [memcpy, hl]
  exact storeBytes_eq buf p value hp

theorem memcpy_from_buffer (buf : List Byte) (p : Nat) (value : List Byte)
    (hp : p + value.length ≤ buf.length) :
    memcpy value 0 buf p value.length = some ((buf.drop p).take value.length) := by
  have hl := loadBytes_some buf p value.length hp
  have hlen : ((buf.drop p).take value.length).length = value.length := by
    simp only [List.length_take, List.length_drop]; omega
  simp only [memcpy, hl, storeBytes, hlen, Nat.zero_add, Nat.le_refl, if_true, List.take_zero,
    List.nil_append, List.drop_length, List.append_nil]

/-! ## Serialize and deserialize -/

theorem serialize_same (buf : List Byte) (p : Nat) (v : List Byte) (e : Int)
    (hp : p + v.length ≤ buf.length) :
    serialize buf p v e e
      = some (buf.take p ++ v ++ buf.drop (p + v.length), p + v.length) := by
  simp only [serialize, if_true, memcpy_into_buffer buf p v hp, Option.map_some']

theorem deserialize_same (buf : List Byte) (p : Nat) (out : List Byte) (e : Int)
    (hp : p + out.length ≤ buf.length) :
    deserialize buf p out e e = some ((buf.drop p).take out.length, p + out.length) := by
  simp only [deserialize, if_true, memcpy_from_buffer buf p out hp, Option.map_some']

theorem serialize_differ (buf : List Byte) (p : Nat) (v : List Byte) (h t : Int)
    (hne : h ≠ t) (hs : v.length ≤ INT_MAX) (hp : p + v.length ≤ buf.length) :
    ∃ buf1, serialize buf p v h t = some (buf1, p + v.length) ∧ buf1.length = buf.length ∧
      ∀ k, buf1[k]? = if p ≤ k ∧ k < p + v.length then v[v.length - 1 - (k - p)]?
        else buf[k]? := by
  obtain ⟨r, hr, hlen, hk⟩ := reverse_loop_spec v.length hs v 0 p (by omega) v.length 0 buf
    (by omega) (by omega) hp
  refine ⟨r, ?_, hlen, ?_⟩
  · simp only [serialize, if_neg hne, hr, Option.map_some']
  · intro k
    rw [hk k, Nat.add_zero, Nat.zero_add]

theorem deserialize_differ (buf : List Byte) (p : Nat) (out : List Byte) (h t : Int)
    (hne : h ≠ t) (hs : out.length ≤ INT_MAX) (hp : p + out.length ≤ buf.length) :
    ∃ out1, deserialize buf p out h t = some (out1, p + out.length) ∧
      out1.length = out.length ∧
      ∀ k, k < out.length → out1[k]? = buf[p + (out.length - 1 - k)]? := by
  obtain ⟨r, hr, hlen, hk⟩ := reverse_loop_spec out.length hs buf p 0 hp out.length 0 out
    (by omega) (by omega) (by omega)
  refine ⟨r, ?_, hlen, ?_⟩
  · simp only [deserialize, if_neg hne, hr, Option.map_some']
  · intro k hklt
    have hin : 0 + 0 ≤ k ∧ k < 0 + out.length := by omega
    rw [hk k, if_pos hin, Nat.sub_zero]

theorem serialize_none_beyond_INT_MAX (buf : List Byte) (p : Nat) (v : List Byte) (h t : Int)
    (hne : h ≠ t) (hs : INT_MAX < v.length) : serialize buf p v h t = none := by
  simp only [serialize, if_neg hne,
    reverse_loop_none v.length hs v 0 p v.length 0 buf (Nat.zero_le _), Option.map_none']

theorem deserialize_none_beyond_INT_MAX (buf : List Byte) (p : Nat) (out : List Byte)
    (h t : Int) (hne : h ≠ t) (hs : INT_MAX < out.length) :
    deserialize buf p out h t = none := by
  simp only [deserialize, if_neg hne,
    reverse_loop_none out.length hs buf p 0 out.length 0 out (Nat.zero_le _), Option.map_none']

theorem LITTLE_ENDIAN_ne_BIG_ENDIAN : LITTLE_ENDIAN ≠ BIG_ENDIAN := by decide

/-! ## C3: deserialize after serialize -/

/-- C3, as amended: for every value `v` (given by its `n` bytes), every buffer
with at least `n` bytes at the cursor `p` and every pair of endianness tags,
where `n` is at most `INT_MAX` when the two tags differ: `serialize` succeeds
and returns the cursor `p + n`, and `deserialize` with the same tags, applied at
`p` to the buffer it leaves and to an object `out` of the same type, leaves `out`
equal to `v` and returns the cursor `p + n`. -/
theorem serialize_deserialize_round_trip (buf : List Byte) (p : Nat) (v out : List Byte)
    (h t : Int) (hs : h ≠ t → v.length ≤ INT_MAX) (hp : p + v.length ≤ buf.length)
    (ho : out.length = v.length) :
    ∃ buf1, serialize buf p v h t = some (buf1, p + v.length) ∧
      deserialize buf1 p out h t = some (v, p + v.length) := by
  by_cases hht : h = t
  · subst hht
    have hlen := stored_length buf p v hp
    have hld := stored_load buf p v hp
    refine ⟨_, serialize_same buf p v h hp, ?_⟩
    rw [deserialize_same _ p out h (by rw [hlen, ho]; exact hp), ho]
    rw [loadBytes_some _ p v.length (by rw [hlen]; exact hp)] at hld
    rw [Option.some.inj hld]
  · obtain ⟨buf1, hser, hlen, hk⟩ := serialize_differ buf p v h t hht (hs hht) hp
    obtain ⟨out1, hde, holen, hok⟩ := deserialize_differ buf1 p out h t hht
      (by rw [ho]; exact hs hht) (by rw [hlen, ho]; exact hp)
    refine ⟨buf1, hser, ?_⟩
    have hv : out1 = v := by
      apply List.ext_getElem?
      intro k
      by_cases hklt : k < out.length
      · have hin : p ≤ p + (out.length - 1 - k) ∧ p + (out.length - 1 - k) < p + v.length := by
          omega
        have hidx : v.length - 1 - (p + (out.length - 1 - k) - p) = k := by omega
        rw [hok k hklt, hk, if_pos hin, hidx]
      · rw [List.getElem?_eq_none (by omega), List.getElem?_eq_none (by omega)]
    rw [hde, hv, ho]

/-- Witness of C3, as amended: a four-byte value written at offset 1 of a
six-byte buffer with the tags `LITTLE_ENDIAN`, `BIG_ENDIAN`. -/
theorem serialize_deserialize_round_trip_witness :
    ∃ buf1, serialize [0, 0, 0, 0, 0, 0] 1 [0x78, 0x56, 0x34, 0x12] LITTLE_ENDIAN BIG_ENDIAN
        = some (buf1, 1 + ([0x78, 0x56, 0x34, 0x12] : List Byte).length) ∧
      deserialize buf1 1 [0, 0, 0, 0] LITTLE_ENDIAN BIG_ENDIAN
        = some ([0x78, 0x56, 0x34, 0x12], 1 + ([0x78, 0x56, 0x34, 0x12] : List Byte).length) :=
  serialize_deserialize_round_trip [0, 0, 0, 0, 0, 0] 1 [0x78, 0x56, 0x34, 0x12] [0, 0, 0, 0]
    LITTLE_ENDIAN BIG_ENDIAN (fun _ => by decide) (by decide) (by decide)

/-- C3, as stated, fails for a value of `2^31 + 1` bytes with the tags
`LITTLE_ENDIAN`, `BIG_ENDIAN` and a buffer of that many bytes at the cursor: the
`int` counter of the reversal loop overflows, `serialize` returns no cursor, and
`deserialize` into an object of that size returns none either, whatever the
buffer holds. -/
theorem serialize_round_trip_beyond_INT_MAX :
    (List.replicate (2 ^ 31 + 1) (0 : Byte)).length = 2 ^ 31 + 1 ∧
    serialize (List.replicate (2 ^ 31 + 1) 0) 0 (List.replicate (2 ^ 31 + 1) 0)
      LITTLE_ENDIAN BIG_ENDIAN = none ∧
    (∀ buf1 : List Byte, deserialize buf1 0 (List.replicate (2 ^ 31 + 1) 0)
      LITTLE_ENDIAN BIG_ENDIAN = none) := by
  have hs : INT_MAX < (List.replicate (2 ^ 31 + 1) (0 : Byte)).length := by
    rw [List.length_replicate]; decide
  exact ⟨List.length_replicate _ _,
    serialize_none_beyond_INT_MAX _ 0 _ _ _ LITTLE_ENDIAN_ne_BIG_ENDIAN hs,
    fun buf1 => deserialize_none_beyond_INT_MAX buf1 0 _ _ _ LITTLE_ENDIAN_ne_BIG_ENDIAN hs⟩

/-! ## C4: equal tags give a byte-for-byte copy -/

/-- C4: for every value `v` of `n` bytes and every endianness tag `e`,
`serialize` with host and buffer tag both `e` succeeds on a buffer with at least
`n` bytes at the cursor and leaves those `n` bytes equal, in the same order, to
the bytes of `v`. -/
theorem serialize_same_endian_copies (buf : List Byte) (p : Nat) (v : List Byte) (e : Int)
    (hp : p + v.length ≤ buf.length) :
    ∃ buf1, serialize buf p v e e = some (buf1, p + v.length) ∧
      loadBytes buf1 p v.length = some v ∧ ∀ i, i < v.length → buf1[p + i]? = v[i]? :=
  ⟨_, serialize_same buf p v e hp, stored_load buf p v hp,
    fun i hi => stored_getElem_in buf p v hp i hi⟩

/-- Witness of C4: a four-byte value copied to offset 1 of a six-byte buffer. -/
theorem serialize_same_endian_copies_witness :
    ∃ buf1, serialize [0, 0, 0, 0, 0, 0] 1 [0x78, 0x56, 0x34, 0x12] BIG_ENDIAN BIG_ENDIAN
        = some (buf1, 1 + ([0x78, 0x56, 0x34, 0x12] : List Byte).length) ∧
      loadBytes buf1 1 ([0x78, 0x56, 0x34, 0x12] : List Byte).length
        = some [0x78, 0x56, 0x34, 0x12] ∧
      ∀ i, i < ([0x78, 0x56, 0x34, 0x12] : List Byte).length →
        buf1[1 + i]? = ([0x78, 0x56, 0x34, 0x12] : List Byte)[i]? :=
  serialize_same_endian_copies [0, 0, 0, 0, 0, 0] 1 [0x78, 0x56, 0x34, 0x12] BIG_ENDIAN
    (by decide)

/-! ## C5: unequal tags give a full byte reversal -/

/-- C5, as amended: for every value `v` of `n` bytes with `n` at most `INT_MAX`
and tags `h`, `t` that differ, `serialize` leaves byte `i` of the buffer at the cursor equal to byte `n-1-i` of
`v` for every `i < n`, and `deserialize` leaves byte `i` of the object `out`
equal to byte `n-1-i` of the buffer at the cursor for every `i < n`. -/
theorem serialize_differing_endian_reverses (buf : List Byte) (p : Nat) (v out : List Byte)
    (h t : Int) (hne : h ≠ t) (hs : v.length ≤ INT_MAX) (hp : p + v.length ≤ buf.length)
    (ho : out.length = v.length) :
    (∃ buf1, serialize buf p v h t = some (buf1, p + v.length) ∧
      ∀ i, i < v.length → ∃ b, v[v.length - 1 - i]? = some b ∧ buf1[p + i]? = some b) ∧
    (∃ out1, deserialize buf p out h t = some (out1, p + v.length) ∧
      out1.length = v.length ∧
      ∀ i, i < v.length → ∃ b, buf[p + (v.length - 1 - i)]? = some b ∧ out1[i]? = some b) := by
  constructor
  · obtain ⟨buf1, hser, _, hk⟩ := serialize_differ buf p v h t hne hs hp
    refine ⟨buf1, hser, fun i hi => ?_⟩
    have hlt : v.length - 1 - i < v.length := by omega
    have hin : p ≤ p + i ∧ p + i < p + v.length := by omega
    have hidx : v.length - 1 - (p + i - p) = v.length - 1 - i := by omega
    refine ⟨v[v.length - 1 - i], List.getElem?_eq_getElem hlt, ?_⟩
    rw [hk, if_pos hin, hidx, List.getElem?_eq_getElem hlt]
  · obtain ⟨out1, hde, holen, hok⟩ := deserialize_differ buf p out h t hne
      (by rw [ho]; exact hs) (by rw [ho]; exact hp)
    rw [ho] at hde holen hok
    refine ⟨out1, hde, holen, fun i hi => ?_⟩
    have hlt : p + (v.length - 1 - i) < buf.length := by omega
    refine ⟨buf[p + (v.length - 1 - i)], List.getElem?_eq_getElem hlt, ?_⟩
    rw [hok i hi, List.getElem?_eq_getElem hlt]

/-- Witness of C5, as amended: a four-byte value, a six-byte buffer, cursor 1 and
the tags `LITTLE_ENDIAN`, `BIG_ENDIAN`. -/
theorem serialize_differing_endian_reverses_witness :
    (∃ buf1, serialize [9, 1, 2, 3, 4, 9] 1 [0x78, 0x56, 0x34, 0x12] LITTLE_ENDIAN BIG_ENDIAN
        = some (buf1, 1 + ([0x78, 0x56, 0x34, 0x12] : List Byte).length) ∧
      ∀ i, i < ([0x78, 0x56, 0x34, 0x12] : List Byte).length →
        ∃ b, ([0x78, 0x56, 0x34, 0x12] : List Byte)[
            ([0x78, 0x56, 0x34, 0x12] : List Byte).length - 1 - i]? = some b ∧
          buf1[1 + i]? = some b) ∧
    (∃ out1, deserialize [9, 1, 2, 3, 4, 9] 1 [0, 0, 0, 0] LITTLE_ENDIAN BIG_ENDIAN
        = some (out1, 1 + ([0x78, 0x56, 0x34, 0x12] : List Byte).length) ∧
      out1.length = ([0x78, 0x56, 0x34, 0x12] : List Byte).length ∧
      ∀ i, i < ([0x78, 0x56, 0x34, 0x12] : List Byte).length →
        ∃ b, ([9, 1, 2, 3, 4, 9] : List Byte)[
            1 + (([0x78, 0x56, 0x34, 0x12] : List Byte).length - 1 - i)]? = some b ∧
          out1[i]? = some b) :=
  serialize_differing_endian_reverses [9, 1, 2, 3, 4, 9] 1 [0x78, 0x56, 0x34, 0x12]
    [0, 0, 0, 0] LITTLE_ENDIAN BIG_ENDIAN (by decide) (by decide) (by decide) (by decide)

/-- C5, as stated, fails for a value of `2^31 + 1` bytes with the unequal tags 0
and 1: neither `serialize` nor `deserialize` completes the reversal, so there is
no buffer whose byte `i` is byte `n-1-i` of the value and no object whose byte
`i` is byte `n-1-i` of the buffer. -/
theorem serialize_reversal_beyond_INT_MAX :
    (¬ ∃ r, serialize (List.replicate (2 ^ 31 + 1) 0) 0 (List.replicate (2 ^ 31 + 1) 0xab)
      0 1 = some r) ∧
    (¬ ∃ r, deserialize (List.replicate (2 ^ 31 + 1) 0xab) 0 (List.replicate (2 ^ 31 + 1) 0)
      0 1 = some r) := by
  have hs (b : Byte) : INT_MAX < (List.replicate (2 ^ 31 + 1) b).length := by
    rw [List.length_replicate]; decide
  have hne : (0 : Int) ≠ 1 := by decide
  constructor
  · rintro ⟨r, hr⟩
    rw [serialize_none_beyond_INT_MAX _ 0 _ 0 1 hne (hs 0xab)] at hr
    cases hr
  · rintro ⟨r, hr⟩
    rw [deserialize_none_beyond_INT_MAX _ 0 _ 0 1 hne (hs 0)] at hr
    cases hr

/-! ## C9: endianness detection -/

/-- C9: `detect_endian` returns `BIG_ENDIAN` exactly when the first byte of the
stored 16-bit value 0x1122 is 0x11 and `LITTLE_ENDIAN` otherwise; it returns
`BIG_ENDIAN` on a big-endian host, `LITTLE_ENDIAN` on a little-endian host, and
never a third value. -/
theorem detect_endian_probe (h : Host) :
    (detect_endian h = BIG_ENDIAN ↔ (toBytes h 2 0x1122).head? = some 0x11) ∧
    (detect_endian h = LITTLE_ENDIAN ↔ ¬ ((toBytes h 2 0x1122).head? = some 0x11)) ∧
    detect_endian .big = BIG_ENDIAN ∧ detect_endian .little = LITTLE_ENDIAN ∧
    (detect_endian h = BIG_ENDIAN ∨ detect_endian h = LITTLE_ENDIAN) := by
  cases h <;> decide

/-! ## C10: the default tags on a big-endian host -/

/-- C10: on a big-endian host the 32-bit value 0x12345678 has the object
representation `12 34 56 78`; `serialize` with its default tags writes
`78 56 34 12`, which is not the big-endian encoding `12 34 56 78`, and
`deserialize` with its default tags applied to the big-endian encoding
`12 34 56 78` leaves an object whose value on that host is 0x78563412, not
0x12345678. -/
theorem default_tags_wrong_on_big_endian_host :
    toBytes .big 4 0x12345678 = [0x12, 0x34, 0x56, 0x78] ∧
    serialize_default [0, 0, 0, 0] 0 (toBytes .big 4 0x12345678)
      = some ([0x78, 0x56, 0x34, 0x12], 4) ∧
    serialize_default [0, 0, 0, 0] 0 (toBytes .big 4 0x12345678)
      ≠ some ([0x12, 0x34, 0x56, 0x78], 4) ∧
    (deserialize_default [0x12, 0x34, 0x56, 0x78] 0 [0, 0, 0, 0]).map
        (fun r => (ofBytes .big r.1, r.2)) = some (0x78563412, 4) ∧
    (deserialize_default [0x12, 0x34, 0x56, 0x78] 0 [0, 0, 0, 0]).map
        (fun r => (ofBytes .big r.1, r.2)) ≠ some (0x12345678, 4) := by
  decide

/-! ## Closed forms of serialize and deserialize -/

theorem loadBytes_ext (m : List Byte) (p n : Nat) (bs : List Byte) (hp : p + n ≤ m.length)
    (hl : bs.length = n) (hk : ∀ i, i < n → m[p + i]? = bs[i]?) :
    loadBytes m p n = some bs := by
  rw [loadBytes_some m p n hp]
  congr 1
  apply List.ext_getElem?
  intro i
  by_cases hi : i < n
  · rw [List.getElem?_take_of_lt hi, List.getElem?_drop, hk i hi]
  · rw [List.getElem?_eq_none (by simp only [List.length_take, List.length_drop]; omega),
      List.getElem?_eq_none (by omega)]

theorem serialize_eq (buf : List Byte) (p : Nat) (v : List Byte) (h t : Int)
    (hs : h ≠ t → v.length ≤ INT_MAX) (hp : p + v.length ≤ buf.length) :
    serialize buf p v h t
      = some (buf.take p ++ (if h = t then v else v.reverse) ++ buf.drop (p + v.length),
          p + v.length) := by
  by_cases hht : h = t
  · subst hht
    rw [if_pos rfl]
    exact serialize_same buf p v h hp
  · obtain ⟨buf1, hser, hlen, hk⟩ := serialize_differ buf p v h t hht (hs hht) hp
    rw [if_neg hht, hser]
    have hrl : v.reverse.length = v.length := List.length_reverse v
    have hp1 : p + v.reverse.length ≤ buf.length := by rw [hrl]; exact hp
    have e : buf1 = buf.take p ++ v.reverse ++ buf.drop (p + v.reverse.length) := by
      apply List.ext_getElem?
      intro k
      rw [hk k]
      by_cases hin : p ≤ k ∧ k < p + v.length
      · have hki : k = p + (k - p) := by omega
        have hlt : k - p < v.length := by omega
        rw [if_pos hin]
        conv => rhs; rw [hki]
        rw [stored_getElem_in buf p v.reverse hp1 (k - p) (by rw [hrl]; exact hlt),
          List.getElem?_reverse hlt]
      · rw [if_neg hin]
        by_cases hlo : k < p
        · rw [stored_getElem_below buf p v.reverse hp1 k hlo]
        · rw [stored_getElem_above buf p v.reverse hp1 k (by rw [hrl]; omega)]
    rw [e, hrl]

theorem deserialize_of_load (buf : List Byte) (p : Nat) (out bs : List Byte) (h t : Int)
    (hs : h ≠ t → out.length ≤ INT_MAX) (hl : loadBytes buf p out.length = some bs) :
    deserialize buf p out h t = some (if h = t then bs else bs.reverse, p + out.length) := by
  have hp : p + out.length ≤ buf.length := by
    by_contra hc
    simp only [loadBytes, if_neg hc] at hl
    cases hl
  have hbl := loadBytes_length buf p out.length bs hl
  rw [loadBytes_some buf p out.length hp] at hl
  have hbs : (buf.drop p).take out.length = bs := Option.some.inj hl
  by_cases hht : h = t
  · subst hht
    rw [if_pos rfl, deserialize_same buf p out h hp, hbs]
  · obtain ⟨out1, hde, holen, hok⟩ := deserialize_differ buf p out h t hht (hs hht) hp
    rw [if_neg hht, hde]
    have e : out1 = bs.reverse := by
      apply List.ext_getElem?
      intro k
      by_cases hklt : k < out.length
      · rw [hok k hklt, List.getElem?_reverse (by rw [hbl]; exact hklt), hbl, ← hbs,
          List.getElem?_take_of_lt (by omega), List.getElem?_drop]
      · rw [List.getElem?_eq_none (by omega),
          List.getElem?_eq_none (by rw [List.length_reverse, hbl]; omega)]
    rw [e]

/-! ## C11: chained calls -/

/-- C11, as amended: for every pair of values `v1` (of `n1` bytes) and `v2` (of
`n2` bytes), every buffer with at least `n1 + n2` bytes at the cursor `p` and
every tag pair, where `n1` and `n2` are at most `INT_MAX` when the two tags
differ: `serialize` of `v1`
at `p` returns `p + n1`, `serialize` of `v2` at that cursor returns
`p + n1 + n2`, and on the resulting buffer `deserialize` at `p` leaves `v1` and
returns `p + n1`, and `deserialize` at that cursor leaves `v2`: the second write
does not disturb the first field. -/
theorem serialize_chain (buf : List Byte) (p : Nat) (v1 v2 o1 o2 : List Byte) (h t : Int)
    (hs1 : h ≠ t → v1.length ≤ INT_MAX) (hs2 : h ≠ t → v2.length ≤ INT_MAX)
    (hp : p + v1.length + v2.length ≤ buf.length)
    (ho1 : o1.length = v1.length) (ho2 : o2.length = v2.length) :
    ∃ b1 b2, serialize buf p v1 h t = some (b1, p + v1.length) ∧
      serialize b1 (p + v1.length) v2 h t = some (b2, p + v1.length + v2.length) ∧
      deserialize b2 p o1 h t = some (v1, p + v1.length) ∧
      deserialize b2 (p + v1.length) o2 h t = some (v2, p + v1.length + v2.length) := by
  have hl1 : (if h = t then v1 else v1.reverse).length = v1.length := by
    split <;> simp only [List.length_reverse]
  have hl2 : (if h = t then v2 else v2.reverse).length = v2.length := by
    split <;> simp only [List.length_reverse]
  have hp1 : p + (if h = t then v1 else v1.reverse).length ≤ buf.length := by
    rw [hl1]; omega
  have hb1 : (buf.take p ++ (if h = t then v1 else v1.reverse)
      ++ buf.drop (p + (if h = t then v1 else v1.reverse).length)).length = buf.length :=
    stored_length buf p _ hp1
  rw [hl1] at hb1
  have hp2 : p + v1.length + (if h = t then v2 else v2.reverse).length
      ≤ (buf.take p ++ (if h = t then v1 else v1.reverse)
        ++ buf.drop (p + v1.length)).length := by
    rw [hl2, hb1]; exact hp
  refine ⟨_, _, serialize_eq buf p v1 h t hs1 (by omega),
    serialize_eq _ (p + v1.length) v2 h t hs2 (by rw [hb1]; exact hp), ?_, ?_⟩
  · have hload : loadBytes
        ((buf.take p ++ (if h = t then v1 else v1.reverse) ++ buf.drop (p + v1.length)).take
            (p + v1.length) ++ (if h = t then v2 else v2.reverse)
          ++ (buf.take p ++ (if h = t then v1 else v1.reverse)
            ++ buf.drop (p + v1.length)).drop (p + v1.length + v2.length))
        p o1.length = some (if h = t then v1 else v1.reverse) := by
      rw [ho1]
      have hstore := stored_length _ (p + v1.length) (if h = t then v2 else v2.reverse) hp2
      rw [hl2] at hstore
      apply loadBytes_ext _ p v1.length _ (by rw [hstore, hb1]; omega) hl1
      intro i hi
      have hbelow := stored_getElem_below _ (p + v1.length) (if h = t then v2 else v2.reverse)
        hp2 (p + i) (by omega)
      rw [hl2] at hbelow
      rw [hbelow]
      have hin := stored_getElem_in buf p (if h = t then v1 else v1.reverse) hp1 i
        (by rw [hl1]; exact hi)
      rw [hl1] at hin
      exact hin
    rw [deserialize_of_load _ p o1 _ h t (fun hne => by rw [ho1]; exact hs1 hne) hload, ho1]
    by_cases hht : h = t
    · simp only [if_pos hht]
    · simp only [if_neg hht, List.reverse_reverse]
  · have hload := stored_load _ (p + v1.length) (if h = t then v2 else v2.reverse) hp2
    rw [hl2, ← ho2] at hload
    rw [ho2] at hload
    have hload2 : loadBytes
        ((buf.take p ++ (if h = t then v1 else v1.reverse) ++ buf.drop (p + v1.length)).take
            (p + v1.length) ++ (if h = t then v2 else v2.reverse)
          ++ (buf.take p ++ (if h = t then v1 else v1.reverse)
            ++ buf.drop (p + v1.length)).drop (p + v1.length + v2.length))
        (p + v1.length) o2.length = some (if h = t then v2 else v2.reverse) := by
      rw [ho2]; exact hload
    rw [deserialize_of_load _ (p + v1.length) o2 _ h t (fun hne => by rw [ho2]; exact hs2 hne) hload2,
      ho2]
    by_cases hht : h = t
    · simp only [if_pos hht]
    · simp only [if_neg hht, List.reverse_reverse]

/-- Witness of C11, as amended: a two-byte and a four-byte value written in turn
from offset 1 of an eight-byte buffer with the tags `LITTLE_ENDIAN`,
`BIG_ENDIAN`. -/
theorem serialize_chain_witness :
    ∃ b1 b2, serialize [0, 0, 0, 0, 0, 0, 0, 0] 1 [0x22, 0x11] LITTLE_ENDIAN BIG_ENDIAN
        = some (b1, 1 + ([0x22, 0x11] : List Byte).length) ∧
      serialize b1 (1 + ([0x22, 0x11] : List Byte).length) [0x78, 0x56, 0x34, 0x12]
          LITTLE_ENDIAN BIG_ENDIAN
        = some (b2, 1 + ([0x22, 0x11] : List Byte).length
            + ([0x78, 0x56, 0x34, 0x12] : List Byte).length) ∧
      deserialize b2 1 [0, 0] LITTLE_ENDIAN BIG_ENDIAN
        = some ([0x22, 0x11], 1 + ([0x22, 0x11] : List Byte).length) ∧
      deserialize b2 (1 + ([0x22, 0x11] : List Byte).length) [0, 0, 0, 0]
          LITTLE_ENDIAN BIG_ENDIAN
        = some ([0x78, 0x56, 0x34, 0x12], 1 + ([0x22, 0x11] : List Byte).length
            + ([0x78, 0x56, 0x34, 0x12] : List Byte).length) :=
  serialize_chain [0, 0, 0, 0, 0, 0, 0, 0] 1 [0x22, 0x11] [0x78, 0x56, 0x34, 0x12] [0, 0]
    [0, 0, 0, 0] LITTLE_ENDIAN BIG_ENDIAN (fun _ => by decide) (fun _ => by decide)
    (by decide) (by decide) (by decide)

/-- C11, as stated, fails for a two-byte value followed by a value of `2^31 + 1`
bytes with the tags `LITTLE_ENDIAN`, `BIG_ENDIAN` and a buffer of `2^31 + 3`
bytes: the first `serialize` returns the cursor 2 and the second, at that
cursor, has no result, so there is no cursor `b + n1 + n2`. -/
theorem serialize_chain_beyond_INT_MAX :
    ∃ b1, serialize (List.replicate (2 ^ 31 + 3) 0) 0 [0x22, 0x11] LITTLE_ENDIAN BIG_ENDIAN
        = some (b1, 2) ∧
      b1.length = 2 ^ 31 + 3 ∧
      serialize b1 2 (List.replicate (2 ^ 31 + 1) 0) LITTLE_ENDIAN BIG_ENDIAN = none := by
  have hs : INT_MAX < (List.replicate (2 ^ 31 + 1) (0 : Byte)).length := by
    rw [List.length_replicate]; decide
  have hp : 0 + ([0x22, 0x11] : List Byte).length
      ≤ (List.replicate (2 ^ 31 + 3) (0 : Byte)).length := by
    rw [List.length_replicate]; decide
  obtain ⟨b1, hser, hlen, _⟩ := serialize_differ (List.replicate (2 ^ 31 + 3) 0) 0
    [0x22, 0x11] LITTLE_ENDIAN BIG_ENDIAN LITTLE_ENDIAN_ne_BIG_ENDIAN (by decide) hp
  refine ⟨b1, hser, ?_, serialize_none_beyond_INT_MAX b1 2 _ _ _ LITTLE_ENDIAN_ne_BIG_ENDIAN hs⟩
  rw [hlen, List.length_replicate]

/-! ## C12: serialize against the push macros -/

theorem toBytes_length (h : Host) (n x : Nat) : (toBytes h n x).length = n := by
  cases h
  · exact toLE_length n x
  · simp only [toBytes, List.length_reverse, toLE_length]

theorem LITTLE_ne_BIG : LITTLE_ENDIAN ≠ BIG_ENDIAN := by decide

theorem BIG_ne_LITTLE : BIG_ENDIAN ≠ LITTLE_ENDIAN := by decide

theorem PUSH_BE16_eq (h : Host) (m : List Byte) (p v : Nat) (hp : p + 2 ≤ m.length) :
    PUSH_BE16 h m p v = some (m.take p ++ (toLE 2 v).reverse ++ m.drop (p + 2), p + 2) := by
  have hl : (toLE 2 v).reverse.length = 2 := by rw [List.length_reverse, toLE_length]
  have hst := storeBytes_eq m p (toLE 2 v).reverse (by rw [hl]; exact hp)
  rw [hl] at hst
  simp only [PUSH_BE16, writeU16, toBytes_htobe16, hst, Option.map_some']

theorem PUSH_LE16_eq (h : Host) (m : List Byte) (p v : Nat) (hp : p + 2 ≤ m.length) :
    PUSH_LE16 h m p v = some (m.take p ++ toLE 2 v ++ m.drop (p + 2), p + 2) := by
  have hl : (toLE 2 v).length = 2 := toLE_length 2 v
  have hst := storeBytes_eq m p (toLE 2 v) (by rw [hl]; exact hp)
  rw [hl] at hst
  simp only [PUSH_LE16, writeU16, toBytes_htole16, hst, Option.map_some']

theorem serialize_eq_PUSH_BE16 (h : Host) (m : List Byte) (p v : Nat)
    (hp : p + 2 ≤ m.length) :
    serialize m p (toBytes h 2 v) (BYTE_ORDER h) BIG_ENDIAN = PUSH_BE16 h m p v := by
  rw [PUSH_BE16_eq h m p v hp, serialize_eq m p _ _ _
    (fun _ => by rw [toBytes_length]; decide) (by rw [toBytes_length]; exact hp),
    toBytes_length]
  cases h
  · simp only [BYTE_ORDER, toBytes, if_neg LITTLE_ne_BIG]
  · simp only [BYTE_ORDER, toBytes, if_true]

theorem serialize_eq_PUSH_LE16 (h : Host) (m : List Byte) (p v : Nat)
    (hp : p + 2 ≤ m.length) :
    serialize m p (toBytes h 2 v) (BYTE_ORDER h) LITTLE_ENDIAN = PUSH_LE16 h m p v := by
  rw [PUSH_LE16_eq h m p v hp, serialize_eq m p _ _ _
    (fun _ => by rw [toBytes_length]; decide) (by rw [toBytes_length]; exact hp),
    toBytes_length]
  cases h
  · simp only [BYTE_ORDER, toBytes, if_true]
  · simp only [BYTE_ORDER, toBytes, if_neg BIG_ne_LITTLE, List.reverse_reverse]

theorem PUSH_BE32_eq (h : Host) (m : List Byte) (p v : Nat) (hp : p + 4 ≤ m.length) :
    PUSH_BE32 h m p v = some (m.take p ++ (toLE 4 v).reverse ++ m.drop (p + 4), p + 4) := by
  have hl : (toLE 4 v).reverse.length = 4 := by rw [List.length_reverse, toLE_length]
  have hst := storeBytes_eq m p (toLE 4 v).reverse (by rw [hl]; exact hp)
  rw [hl] at hst
  simp only [PUSH_BE32, writeU32, toBytes_htobe32, hst, Option.map_some']

theorem PUSH_LE32_eq (h : Host) (m : List Byte) (p v : Nat) (hp : p + 4 ≤ m.length) :
    PUSH_LE32 h m p v = some (m.take p ++ toLE 4 v ++ m.drop (p + 4), p + 4) := by
  have hl : (toLE 4 v).length = 4 := toLE_length 4 v
  have hst := storeBytes_eq m p (toLE 4 v) (by rw [hl]; exact hp)
  rw [hl] at hst
  simp only [PUSH_LE32, writeU32, toBytes_htole32, hst, Option.map_some']

theorem serialize_eq_PUSH_BE32 (h : Host) (m : List Byte) (p v : Nat)
    (hp : p + 4 ≤ m.length) :
    serialize m p (toBytes h 4 v) (BYTE_ORDER h) BIG_ENDIAN = PUSH_BE32 h m p v := by
  rw [PUSH_BE32_eq h m p v hp, serialize_eq m p _ _ _
    (fun _ => by rw [toBytes_length]; decide) (by rw [toBytes_length]; exact hp),
    toBytes_length]
  cases h
  · simp only [BYTE_ORDER, toBytes, if_neg LITTLE_ne_BIG]
  · simp only [BYTE_ORDER, toBytes, if_true]

theorem serialize_eq_PUSH_LE32 (h : Host) (m : List Byte) (p v : Nat)
    (hp : p + 4 ≤ m.length) :
    serialize m p (toBytes h 4 v) (BYTE_ORDER h) LITTLE_ENDIAN = PUSH_LE32 h m p v := by
  rw [PUSH_LE32_eq h m p v hp, serialize_eq m p _ _ _
    (fun _ => by rw [toBytes_length]; decide) (by rw [toBytes_length]; exact hp),
    toBytes_length]
  cases h
  · simp only [BYTE_ORDER, toBytes, if_true]
  · simp only [BYTE_ORDER, toBytes, if_neg BIG_ne_LITTLE, List.reverse_reverse]

theorem PUSH_BE64_eq (h : Host) (m : List Byte) (p v : Nat) (hp : p + 8 ≤ m.length) :
    PUSH_BE64 h m p v = some (m.take p ++ (toLE 8 v).reverse ++ m.drop (p + 8), p + 8) := by
  have hl : (toLE 8 v).reverse.length = 8 := by rw [List.length_reverse, toLE_length]
  have hst := storeBytes_eq m p (toLE 8 v).reverse (by rw [hl]; exact hp)
  rw [hl] at hst
  simp only [PUSH_BE64, writeU64, toBytes_htobe64, hst, Option.map_some']

theorem PUSH_LE64_eq (h : Host) (m : List Byte) (p v : Nat) (hp : p + 8 ≤ m.length) :
    PUSH_LE64 h m p v = some (m.take p ++ toLE 8 v ++ m.drop (p + 8), p + 8) := by
  have hl : (toLE 8 v).length = 8 := toLE_length 8 v
  have hst := storeBytes_eq m p (toLE 8 v) (by rw [hl]; exact hp)
  rw [hl] at hst
  simp only [PUSH_LE64, writeU64, toBytes_htole64, hst, Option.map_some']

theorem serialize_eq_PUSH_BE64 (h : Host) (m : List Byte) (p v : Nat)
    (hp : p + 8 ≤ m.length) :
    serialize m p (toBytes h 8 v) (BYTE_ORDER h) BIG_ENDIAN = PUSH_BE64 h m p v := by
  rw [PUSH_BE64_eq h m p v hp, serialize_eq m p _ _ _
    (fun _ => by rw [toBytes_length]; decide) (by rw [toBytes_length]; exact hp),
    toBytes_length]
  cases h
  · simp only [BYTE_ORDER, toBytes, if_neg LITTLE_ne_BIG]
  · simp only [BYTE_ORDER, toBytes, if_true]

theorem serialize_eq_PUSH_LE64 (h : Host) (m : List Byte) (p v : Nat)
    (hp : p + 8 ≤ m.length) :
    serialize m p (toBytes h 8 v) (BYTE_ORDER h) LITTLE_ENDIAN = PUSH_LE64 h m p v := by
  rw [PUSH_LE64_eq h m p v hp, serialize_eq m p _ _ _
    (fun _ => by rw [toBytes_length]; decide) (by rw [toBytes_length]; exact hp),
    toBytes_length]
  cases h
  · simp only [BYTE_ORDER, toBytes, if_true]
  · simp only [BYTE_ORDER, toBytes, if_neg BIG_ne_LITTLE, List.reverse_reverse]

/-- C12: for each width 16, 32 and 64, every value `v` and either host, where
the host's own byte order is passed as `host_endian` and `v` is given by its
object representation on that host: `serialize` with buffer tag `BIG_ENDIAN`
leaves the same buffer and returns the same cursor as the `PUSH_BE` macro of
that width, and with buffer tag `LITTLE_ENDIAN` the same as the `PUSH_LE`
macro. -/
theorem serialize_refines_PUSH (h : Host) (m : List Byte) (p : Nat) :
    (p + 2 ≤ m.length → ∀ v,
      (∃ r, PUSH_BE16 h m p v = some r ∧
        serialize m p (toBytes h 2 v) (BYTE_ORDER h) BIG_ENDIAN = some r) ∧
      (∃ r, PUSH_LE16 h m p v = some r ∧
        serialize m p (toBytes h 2 v) (BYTE_ORDER h) LITTLE_ENDIAN = some r)) ∧
    (p + 4 ≤ m.length → ∀ v,
      (∃ r, PUSH_BE32 h m p v = some r ∧
        serialize m p (toBytes h 4 v) (BYTE_ORDER h) BIG_ENDIAN = some r) ∧
      (∃ r, PUSH_LE32 h m p v = some r ∧
        serialize m p (toBytes h 4 v) (BYTE_ORDER h) LITTLE_ENDIAN = some r)) ∧
    (p + 8 ≤ m.length → ∀ v,
      (∃ r, PUSH_BE64 h m p v = some r ∧
        serialize m p (toBytes h 8 v) (BYTE_ORDER h) BIG_ENDIAN = some r) ∧
      (∃ r, PUSH_LE64 h m p v = some r ∧
        serialize m p (toBytes h 8 v) (BYTE_ORDER h) LITTLE_ENDIAN = some r)) := by
  refine ⟨?_, ?_, ?_⟩
  · intro hp v
    exact ⟨⟨_, PUSH_BE16_eq h m p v hp,
        (serialize_eq_PUSH_BE16 h m p v hp).trans (PUSH_BE16_eq h m p v hp)⟩,
      ⟨_, PUSH_LE16_eq h m p v hp,
        (serialize_eq_PUSH_LE16 h m p v hp).trans (PUSH_LE16_eq h m p v hp)⟩⟩
  · intro hp v
    exact ⟨⟨_, PUSH_BE32_eq h m p v hp,
        (serialize_eq_PUSH_BE32 h m p v hp).trans (PUSH_BE32_eq h m p v hp)⟩,
      ⟨_, PUSH_LE32_eq h m p v hp,
        (serialize_eq_PUSH_LE32 h m p v hp).trans (PUSH_LE32_eq h m p v hp)⟩⟩
  · intro hp v
    exact ⟨⟨_, PUSH_BE64_eq h m p v hp,
        (serialize_eq_PUSH_BE64 h m p v hp).trans (PUSH_BE64_eq h m p v hp)⟩,
      ⟨_, PUSH_LE64_eq h m p v hp,
        (serialize_eq_PUSH_LE64 h m p v hp).trans (PUSH_LE64_eq h m p v hp)⟩⟩

/-- Witness of C12: the 32-bit part at offset 1 of a six-byte buffer on a
big-endian host, for the value 0x12345678. -/
theorem serialize_refines_PUSH_witness :
    (∃ r, PUSH_BE32 .big [0, 0, 0, 0, 0, 0] 1 0x12345678 = some r ∧
      serialize [0, 0, 0, 0, 0, 0] 1 (toBytes .big 4 0x12345678) (BYTE_ORDER .big) BIG_ENDIAN
        = some r) ∧
    (∃ r, PUSH_LE32 .big [0, 0, 0, 0, 0, 0] 1 0x12345678 = some r ∧
      serialize [0, 0, 0, 0, 0, 0] 1 (toBytes .big 4 0x12345678) (BYTE_ORDER .big) LITTLE_ENDIAN
        = some r) :=
  (serialize_refines_PUSH .big [0, 0, 0, 0, 0, 0] 1).2.1 (by decide) 0x12345678

/-! ## C13: the tags matter only through their equality -/

theorem stored_load_of_length (m : List Byte) (p n : Nat) (bs : List Byte) (hl : bs.length = n)
    (hp : p + n ≤ m.length) :
    loadBytes (m.take p ++ bs ++ m.drop (p + n)) p n = some bs := by
  subst hl
  exact stored_load m p bs hp

theorem PUT_BE16_stored (h : Host) (m : List Byte) (p v : Nat) (hp : p + 2 ≤ m.length) :
    PUT_BE16 h m p v = some (m.take p ++ (toLE 2 v).reverse ++ m.drop (p + 2)) := by
  have hl : (toLE 2 v).reverse.length = 2 := by rw [List.length_reverse, toLE_length]
  have hst := storeBytes_eq m p (toLE 2 v).reverse (by rw [hl]; exact hp)
  rw [hl] at hst
  simp only [PUT_BE16, writeU16, toBytes_htobe16, hst]

theorem PUT_LE16_stored (h : Host) (m : List Byte) (p v : Nat) (hp : p + 2 ≤ m.length) :
    PUT_LE16 h m p v = some (m.take p ++ toLE 2 v ++ m.drop (p + 2)) := by
  have hl : (toLE 2 v).length = 2 := toLE_length 2 v
  have hst := storeBytes_eq m p (toLE 2 v) (by rw [hl]; exact hp)
  rw [hl] at hst
  simp only [PUT_LE16, writeU16, toBytes_htole16, hst]

theorem htobe16_eq_reverse_htole16 (h : Host) (v : Nat) :
    htobe16 h v = ofLE (toLE 2 (htole16 h v)).reverse := by
  cases h
  · simp only [htobe16, htons, htole16, BYTE_ORDER_little, if_true, bswap16_eq]
  · have e : (2 : Nat) ^ 16 = 256 ^ 2 := by norm_num
    simp only [htobe16, htons, htole16, BYTE_ORDER_big_ne, if_false, bswap16_eq,
      toLE_ofLE_reverse, List.reverse_reverse, ofLE_toLE, e]

theorem PUT_BE32_stored (h : Host) (m : List Byte) (p v : Nat) (hp : p + 4 ≤ m.length) :
    PUT_BE32 h m p v = some (m.take p ++ (toLE 4 v).reverse ++ m.drop (p + 4)) := by
  have hl : (toLE 4 v).reverse.length = 4 := by rw [List.length_reverse, toLE_length]
  have hst := storeBytes_eq m p (toLE 4 v).reverse (by rw [hl]; exact hp)
  rw [hl] at hst
  simp only [PUT_BE32, writeU32, toBytes_htobe32, hst]

theorem PUT_LE32_stored (h : Host) (m : List Byte) (p v : Nat) (hp : p + 4 ≤ m.length) :
    PUT_LE32 h m p v = some (m.take p ++ toLE 4 v ++ m.drop (p + 4)) := by
  have hl : (toLE 4 v).length = 4 := toLE_length 4 v
  have hst := storeBytes_eq m p (toLE 4 v) (by rw [hl]; exact hp)
  rw [hl] at hst
  simp only [PUT_LE32, writeU32, toBytes_htole32, hst]

theorem htobe32_eq_reverse_htole32 (h : Host) (v : Nat) :
    htobe32 h v = ofLE (toLE 4 (htole32 h v)).reverse := by
  cases h
  · simp only [htobe32, htonl, htole32, BYTE_ORDER_little, if_true, bswap32_eq]
  · have e : (2 : Nat) ^ 32 = 256 ^ 4 := by norm_num
    simp only [htobe32, htonl, htole32, BYTE_ORDER_big_ne, if_false, bswap32_eq,
      toLE_ofLE_reverse, List.reverse_reverse, ofLE_toLE, e]

theorem PUT_BE64_stored (h : Host) (m : List Byte) (p v : Nat) (hp : p + 8 ≤ m.length) :
    PUT_BE64 h m p v = some (m.take p ++ (toLE 8 v).reverse ++ m.drop (p + 8)) := by
  have hl : (toLE 8 v).reverse.length = 8 := by rw [List.length_reverse, toLE_length]
  have hst := storeBytes_eq m p (toLE 8 v).reverse (by rw [hl]; exact hp)
  rw [hl] at hst
  simp only [PUT_BE64, writeU64, toBytes_htobe64, hst]

theorem PUT_LE64_stored (h : Host) (m : List Byte) (p v : Nat) (hp : p + 8 ≤ m.length) :
    PUT_LE64 h m p v = some (m.take p ++ toLE 8 v ++ m.drop (p + 8)) := by
  have hl : (toLE 8 v).length = 8 := toLE_length 8 v
  have hst := storeBytes_eq m p (toLE 8 v) (by rw [hl]; exact hp)
  rw [hl] at hst
  simp only [PUT_LE64, writeU64, toBytes_htole64, hst]

theorem htobe64_eq_reverse_htole64 (h : Host) (v : Nat) :
    htobe64 h v = ofLE (toLE 8 (htole64 h v)).reverse := by
  cases h
  · simp only [htobe64, htonll, htole64, BYTE_ORDER_little, if_true, bswap64_eq]
  · have e : (2 : Nat) ^ 64 = 256 ^ 8 := by norm_num
    simp only [htobe64, htonll, htole64, BYTE_ORDER_big_ne, if_false, bswap64_eq,
      toLE_ofLE_reverse, List.reverse_reverse, ofLE_toLE, e]

/-- C15: for each width 16, 32 and 64, every value `v` and either host, the
bytes that `PUT_BE` of that width leaves at `p` are the bytes that `PUT_LE` of
that width leaves at `p`, in reversed order; and `htobe` of `v` is the number
whose bytes are those of `htole` of `v` in reversed order. -/
theorem PUT_BE_reverses_PUT_LE (h : Host) (m : List Byte) (p : Nat) :
    ((p + 2 ≤ m.length → ∀ v, ∃ mb ml bs,
        PUT_BE16 h m p v = some mb ∧ PUT_LE16 h m p v = some ml ∧
        loadBytes ml p 2 = some bs ∧ loadBytes mb p 2 = some bs.reverse) ∧
      ∀ v, htobe16 h v = ofLE (toLE 2 (htole16 h v)).reverse) ∧
    ((p + 4 ≤ m.length → ∀ v, ∃ mb ml bs,
        PUT_BE32 h m p v = some mb ∧ PUT_LE32 h m p v = some ml ∧
        loadBytes ml p 4 = some bs ∧ loadBytes mb p 4 = some bs.reverse) ∧
      ∀ v, htobe32 h v = ofLE (toLE 4 (htole32 h v)).reverse) ∧
    ((p + 8 ≤ m.length → ∀ v, ∃ mb ml bs,
        PUT_BE64 h m p v = some mb ∧ PUT_LE64 h m p v = some ml ∧
        loadBytes ml p 8 = some bs ∧ loadBytes mb p 8 = some bs.reverse) ∧
      ∀ v, htobe64 h v = ofLE (toLE 8 (htole64 h v)).reverse) := by
  refine ⟨?_, ?_, ?_⟩
  · refine ⟨fun hp v => ⟨_, _, toLE 2 v, PUT_BE16_stored h m p v hp,
      PUT_LE16_stored h m p v hp, ?_, ?_⟩, htobe16_eq_reverse_htole16 h⟩
    · exact stored_load_of_length m p 2 _ (toLE_length 2 v) hp
    · exact stored_load_of_length m p 2 _
        (by rw [List.length_reverse, toLE_length]) hp
  · refine ⟨fun hp v => ⟨_, _, toLE 4 v, PUT_BE32_stored h m p v hp,
      PUT_LE32_stored h m p v hp, ?_, ?_⟩, htobe32_eq_reverse_htole32 h⟩
    · exact stored_load_of_length m p 4 _ (toLE_length 4 v) hp
    · exact stored_load_of_length m p 4 _
        (by rw [List.length_reverse, toLE_length]) hp
  · refine ⟨fun hp v => ⟨_, _, toLE 8 v, PUT_BE64_stored h m p v hp,
      PUT_LE64_stored h m p v hp, ?_, ?_⟩, htobe64_eq_reverse_htole64 h⟩
    · exact stored_load_of_length m p 8 _ (toLE_length 8 v) hp
    · exact stored_load_of_length m p 8 _
        (by rw [List.length_reverse, toLE_length]) hp

/-- Witness of C15: the 16-bit part at offset 1 of a four-byte buffer on a
little-endian host, for the value 0x1122. -/
theorem PUT_BE_reverses_PUT_LE_witness :
    ∃ mb ml bs, PUT_BE16 .little [0, 0, 0, 0] 1 0x1122 = some mb ∧
      PUT_LE16 .little [0, 0, 0, 0] 1 0x1122 = some ml ∧
      loadBytes ml 1 2 = some bs ∧ loadBytes mb 1 2 = some bs.reverse :=
  (PUT_BE_reverses_PUT_LE .little [0, 0, 0, 0] 1).1.1 (by decide) 0x1122

/-! ## C16: the iterations of the reversal loop -/

theorem INT_MAX_lt_size_modulus (size : Nat) (hs : size ≤ INT_MAX) : size < 2 ^ 64 := by
  unfold INT_MAX at hs
  norm_num at hs ⊢
  omega

theorem reverse_loop_iterations_from (size : Nat) (hs : size ≤ INT_MAX) :
    ∀ (fuel i : Nat), i ≤ size → size ≤ i + fuel →
      reverse_loop_iterations size fuel i
        = some ((List.range' i (size - i)).map (fun j => (j, size - j - 1))) := by
  intro fuel
  induction fuel with
  | zero =>
    intro i hi hf
    have hlt : ¬ i < size := by omega
    have e : size - i = 0 := by omega
    simp only [reverse_loop_iterations, if_neg hlt, e, List.range'_zero, List.map_nil]
  | succ fuel ih =>
    intro i hi hf
    by_cases hlt : i < size
    · have hinc : i + 1 ≤ INT_MAX := by omega
      have e : size - i = (size - (i + 1)) + 1 := by omega
      have hr : List.range' i (size - i) = i :: List.range' (i + 1) (size - (i + 1)) := by
        rw [e, List.range'_succ]
      simp only [reverse_loop_iterations, if_pos hlt, if_pos hinc,
        ih (i + 1) (by omega) (by omega), Option.map_some',
        size_sub_index size i (INT_MAX_lt_size_modulus size hs) hlt, hr, List.map_cons]
    · have e : size - i = 0 := by omega
      simp only [reverse_loop_iterations, if_neg hlt, e, List.range'_zero, List.map_nil]

theorem reverse_loop_of_iterations (size : Nat) (src : List Byte) (s d : Nat) :
    ∀ (fuel i : Nat) (dst : List Byte) (tr : List (Nat × Nat)),
      reverse_loop_iterations size fuel i = some tr →
      (∀ w, w ∈ tr → s + w.2 < src.length) → (∀ w, w ∈ tr → d + w.1 < dst.length) →
      reverse_loop size src s d fuel i dst
        = some (tr.foldl (fun m w => m.set (d + w.1) (src.getD (s + w.2) 0)) dst) := by
  intro fuel
  induction fuel with
  | zero =>
    intro i dst tr htr _ _
    by_cases hlt : i < size
    · simp only [reverse_loop_iterations, if_pos hlt] at htr
      cases htr
    · simp only [reverse_loop_iterations, if_neg hlt, Option.some.injEq] at htr
      subst htr
      simp only [reverse_loop, if_neg hlt, List.foldl_nil]
  | succ fuel ih =>
    intro i dst tr htr hsrc hdst
    by_cases hlt : i < size
    · by_cases hinc : i + 1 ≤ INT_MAX
      · simp only [reverse_loop_iterations, if_pos hlt, if_pos hinc, Option.map_eq_some'] at htr
        obtain ⟨rest, hrest, hcons⟩ := htr
        subst hcons
        have hs1 : s + size_sub (size_sub size i) 1 < src.length :=
          hsrc (i, size_sub (size_sub size i) 1) (List.mem_cons_self _ _)
        have hd1 : d + i < dst.length :=
          hdst (i, size_sub (size_sub size i) 1) (List.mem_cons_self _ _)
        have hget : src[s + size_sub (size_sub size i) 1]?
            = some (src.getD (s + size_sub (size_sub size i) 1) 0) := by
          rw [List.getD_eq_getElem?_getD, List.getElem?_eq_getElem hs1, Option.getD_some]
        simp only [reverse_loop, if_pos hlt, hget, if_pos hd1, if_pos hinc, List.foldl_cons]
        exact ih (i + 1) _ rest hrest (fun w hw => hsrc w (List.mem_cons_of_mem _ hw))
          (fun w hw => by rw [List.length_set]; exact hdst w (List.mem_cons_of_mem _ hw))
      · simp only [reverse_loop_iterations, if_pos hlt, if_neg hinc] at htr
        cases htr
    · simp only [reverse_loop_iterations, if_neg hlt, Option.some.injEq] at htr
      subst htr
      simp only [reverse_loop, if_neg hlt, List.foldl_nil]

theorem reverse_loop_iterations_none (size : Nat) (hs : INT_MAX < size) :
    ∀ (fuel i : Nat), i ≤ INT_MAX → reverse_loop_iterations size fuel i = none := by
  intro fuel
  induction fuel with
  | zero =>
    intro i hi
    have hlt : i < size := by omega
    simp only [reverse_loop_iterations, if_pos hlt]
  | succ fuel ih =>
    intro i hi
    have hlt : i < size := by omega
    by_cases hinc : i + 1 ≤ INT_MAX
    · simp only [reverse_loop_iterations, if_pos hlt, if_pos hinc, ih (i + 1) hinc,
        Option.map_none']
    · simp only [reverse_loop_iterations, if_pos hlt, if_neg hinc]

/-- C16, as amended: for every size `n` up to `INT_MAX` the reversal loop of
`serialize` and `deserialize` runs exactly `n` iterations, with
`i = 0, 1, ..., n-1` in this order; at each of them the index `n-i-1` computed in
`size_t` does not wrap around and is below `n`; the map `i -> n-i-1` is a
bijection on the indices below `n`; every destination index and every source
index below `n` occurs in exactly one iteration; and on a source and a
destination that hold `n` bytes the loop completes and has the effect of these
`n` writes, all inside the two regions. -/
theorem reverse_loop_runs_n_iterations (n : Nat) (hn : n ≤ INT_MAX) :
    reverse_loop_iterations n n 0 = some ((List.range n).map (fun i => (i, n - i - 1))) ∧
    (∀ i, i < n → size_sub (size_sub n i) 1 = n - i - 1 ∧ n - i - 1 < n) ∧
    Set.BijOn (fun i => n - i - 1) (Set.Iio n) (Set.Iio n) ∧
    (∀ j, j < n → (((List.range n).map (fun i => (i, n - i - 1))).map Prod.fst).count j = 1 ∧ (((List.range n).map (fun i => (i, n - i - 1))).map Prod.snd).count j = 1) ∧
    (∀ (src dst : List Byte) (s d : Nat), s + n ≤ src.length → d + n ≤ dst.length →
      reverse_loop n src s d n 0 dst
        = some (((List.range n).map (fun i => (i, n - i - 1))).foldl (fun m w => m.set (d + w.1) (src.getD (s + w.2) 0)) dst)) := by
  have htr : reverse_loop_iterations n n 0 = some ((List.range n).map (fun i => (i, n - i - 1))) := by
    have h0 := reverse_loop_iterations_from n hn n 0 (Nat.zero_le n) (by omega)
    rw [Nat.sub_zero, ← List.range_eq_range'] at h0
    exact h0
  refine ⟨htr, ?_, ?_, ?_, ?_⟩
  · intro i hi
    exact ⟨size_sub_index n i (INT_MAX_lt_size_modulus n hn) hi, by omega⟩
  · refine ⟨?_, ?_, ?_⟩
    · intro i hi
      simp only [Set.mem_Iio] at hi ⊢
      omega
    · intro i hi j hj hij
      simp only [Set.mem_Iio] at hi hj
      simp only at hij
      omega
    · intro j hj
      simp only [Set.mem_Iio] at hj
      exact ⟨n - j - 1, by simp only [Set.mem_Iio]; omega, by simp only; omega⟩
  · intro j hj
    have hfst : ((List.range n).map (fun i => (i, n - i - 1))).map Prod.fst = List.range n := by
      rw [List.map_map]
      exact List.map_id _
    have hsnd : ((List.range n).map (fun i => (i, n - i - 1))).map Prod.snd = (List.range n).map (fun i => n - i - 1) := by
      rw [List.map_map]
      rfl
    rw [hfst, hsnd]
    refine ⟨List.count_eq_one_of_mem (List.nodup_range n) (List.mem_range.mpr hj),
      List.count_eq_one_of_mem ?_ ?_⟩
    · apply List.Nodup.map_on _ (List.nodup_range n)
      intro a ha b hb hab
      rw [List.mem_range] at ha hb
      omega
    · exact List.mem_map.mpr ⟨n - j - 1, List.mem_range.mpr (by omega), by omega⟩
  · intro src dst s d hsrc hdst
    apply reverse_loop_of_iterations n src s d n 0 dst _ htr
    · intro w hw
      obtain ⟨i, hi, rfl⟩ := List.mem_map.mp hw
      rw [List.mem_range] at hi
      show s + (n - i - 1) < src.length
      omega
    · intro w hw
      obtain ⟨i, hi, rfl⟩ := List.mem_map.mp hw
      rw [List.mem_range] at hi
      show d + i < dst.length
      omega

/-- Witness of C16, as amended: the size 4. -/
theorem reverse_loop_runs_n_iterations_witness :
    reverse_loop_iterations 4 4 0 = some [(0, 3), (1, 2), (2, 1), (3, 0)] ∧
    reverse_loop 4 [0x78, 0x56, 0x34, 0x12] 0 1 4 0 [9, 0, 0, 0, 0, 9]
      = some [9, 0x12, 0x34, 0x56, 0x78, 9] := by
  have key := reverse_loop_runs_n_iterations 4 (by decide)
  refine ⟨key.1.trans (by decide), ?_⟩
  rw [key.2.2.2.2 [0x78, 0x56, 0x34, 0x12] [9, 0, 0, 0, 0, 9] 0 1 (by decide) (by decide)]
  decide

/-- C16, as stated, fails at the size `2^31 + 1`: the counter `i` is an `int`
and cannot reach `n - 1 = 2^31`; its increment at `INT_MAX` overflows, so the
loop has no run of `n` iterations, whatever the number of iterations followed
and whatever the source and the destination. -/
theorem reverse_loop_counter_overflow :
    (∀ fuel, reverse_loop_iterations (2 ^ 31 + 1) fuel 0 = none) ∧
    (∀ fuel (src dst : List Byte) (s d : Nat),
      reverse_loop (2 ^ 31 + 1) src s d fuel 0 dst = none) := by
  have hs : INT_MAX < 2 ^ 31 + 1 := by decide
  exact ⟨fun fuel => reverse_loop_iterations_none _ hs fuel 0 (Nat.zero_le _),
    fun fuel src dst s d => reverse_loop_none _ hs src s d fuel 0 dst (Nat.zero_le _)⟩

/-! ## C14: what serialize and deserialize leave unchanged -/

theorem reverse_loop_frame (size : Nat) (src : List Byte) (s d : Nat) :
    ∀ (fuel i : Nat) (dst r : List Byte), reverse_loop size src s d fuel i dst = some r →
      r.length = dst.length ∧ ∀ k, (k < d + i ∨ d + size ≤ k) → r[k]? = dst[k]? := by
  intro fuel
  induction fuel with
  | zero =>
    intro i dst r hr
    by_cases hlt : i < size
    · simp only [reverse_loop, if_pos hlt] at hr
      cases hr
    · simp only [reverse_loop, if_neg hlt, Option.some.injEq] at hr
      subst hr
      exact ⟨rfl, fun _ _ => rfl⟩
  | succ fuel ih =>
    intro i dst r hr
    by_cases hlt : i < size
    · simp only [reverse_loop, if_pos hlt] at hr
      split at hr
      · cases hr
      · next b _ =>
        split at hr
        · split at hr
          · obtain ⟨hlen, hk⟩ := ih (i + 1) _ r hr
            rw [List.length_set] at hlen
            refine ⟨hlen, fun k hkr => ?_⟩
            rw [hk k (by omega), List.getElem?_set_ne (by omega)]
          · cases hr
        · cases hr
    · simp only [reverse_loop, if_neg hlt, Option.some.injEq] at hr
      subst hr
      exact ⟨rfl, fun _ _ => rfl⟩

theorem reverse_loop_mem_frame (size pSrc pDst : Nat) :
    ∀ (fuel i : Nat) (mem r : List Byte), reverse_loop_mem size pSrc pDst fuel i mem = some r →
      r.length = mem.length ∧ ∀ k, (k < pDst + i ∨ pDst + size ≤ k) → r[k]? = mem[k]? := by
  intro fuel
  induction fuel with
  | zero =>
    intro i mem r hr
    by_cases hlt : i < size
    · simp only [reverse_loop_mem, if_pos hlt] at hr
      cases hr
    · simp only [reverse_loop_mem, if_neg hlt, Option.some.injEq] at hr
      subst hr
      exact ⟨rfl, fun _ _ => rfl⟩
  | succ fuel ih =>
    intro i mem r hr
    by_cases hlt : i < size
    · simp only [reverse_loop_mem, if_pos hlt] at hr
      split at hr
      · cases hr
      · next b _ =>
        split at hr
        · split at hr
          · obtain ⟨hlen, hk⟩ := ih (i + 1) _ r hr
            rw [List.length_set] at hlen
            refine ⟨hlen, fun k hkr => ?_⟩
            rw [hk k (by omega), List.getElem?_set_ne (by omega)]
          · cases hr
        · cases hr
    · simp only [reverse_loop_mem, if_neg hlt, Option.some.injEq] at hr
      subst hr
      exact ⟨rfl, fun _ _ => rfl⟩

theorem storeBytes_frame (m : List Byte) (p : Nat) (bs r : List Byte)
    (hr : storeBytes m p bs = some r) :
    r.length = m.length ∧ ∀ k, (k < p ∨ p + bs.length ≤ k) → r[k]? = m[k]? := by
  by_cases hp : p + bs.length ≤ m.length
  · rw [storeBytes_eq m p bs hp] at hr
    cases hr
    refine ⟨stored_length m p bs hp, fun k hk => ?_⟩
    rcases hk with hk | hk
    · exact stored_getElem_below m p bs hp k hk
    · exact stored_getElem_above m p bs hp k hk
  · simp only [storeBytes, if_neg hp] at hr
    cases hr

theorem serialize_frame (buf : List Byte) (p : Nat) (v : List Byte) (h t : Int)
    (buf1 : List Byte) (c : Nat) (hr : serialize buf p v h t = some (buf1, c)) :
    buf1.length = buf.length ∧ ∀ k, (k < p ∨ p + v.length ≤ k) → buf1[k]? = buf[k]? := by
  simp only [serialize, Option.map_eq_some', Prod.mk.injEq] at hr
  obtain ⟨b, hb, rfl, _⟩ := hr
  by_cases hht : h = t
  · rw [if_pos hht] at hb
    have hl : loadBytes v 0 v.length = some v := by simp [loadBytes]
    simp only [memcpy, hl] at hb
    exact storeBytes_frame buf p v b hb
  · rw [if_neg hht] at hb
    have hf := reverse_loop_frame v.length v 0 p v.length 0 buf b hb
    rw [Nat.add_zero] at hf
    exact hf

theorem deserialize_mem_frame (mem : List Byte) (p q n : Nat) (h t : Int)
    (mem1 : List Byte) (c : Nat) (hr : deserialize_mem mem p q n h t = some (mem1, c)) :
    mem1.length = mem.length ∧ ∀ k, (k < q ∨ q + n ≤ k) → mem1[k]? = mem[k]? := by
  simp only [deserialize_mem, Option.map_eq_some', Prod.mk.injEq] at hr
  obtain ⟨b, hb, rfl, _⟩ := hr
  by_cases hht : h = t
  · rw [if_pos hht] at hb
    unfold memcpy_mem at hb
    split at hb
    · split at hb
      · cases hb
      · next bs hbs =>
        have hlen := loadBytes_length mem p n bs hbs
        have hf := storeBytes_frame mem q bs b hb
        rw [hlen] at hf
        exact hf
    · cases hb
  · rw [if_neg hht] at hb
    have hf := reverse_loop_mem_frame n p q n 0 mem b hb
    rw [Nat.add_zero] at hf
    exact hf

theorem reverse_loop_mem_spec (size : Nat) (hs : size ≤ INT_MAX) (mem0 : List Byte)
    (pSrc pDst : Nat) (hsrc : pSrc + size ≤ mem0.length) (hdst : pDst + size ≤ mem0.length)
    (hdis : pDst + size ≤ pSrc ∨ pSrc + size ≤ pDst) :
    ∀ (fuel i : Nat) (mem : List Byte), i ≤ size → size ≤ i + fuel →
      mem.length = mem0.length → (∀ k, k < size → mem[pSrc + k]? = mem0[pSrc + k]?) →
      ∃ r, reverse_loop_mem size pSrc pDst fuel i mem = some r ∧ r.length = mem0.length ∧
        ∀ k, r[k]? = if pDst + i ≤ k ∧ k < pDst + size
          then mem0[pSrc + (size - 1 - (k - pDst))]? else mem[k]? := by
  intro fuel
  induction fuel with
  | zero =>
    intro i mem hi hf hlen _
    have hlt : ¬ i < size := by omega
    refine ⟨mem, by simp only [reverse_loop_mem, if_neg hlt], hlen, fun k => ?_⟩
    have hout : ¬ (pDst + i ≤ k ∧ k < pDst + size) := by omega
    rw [if_neg hout]
  | succ fuel ih =>
    intro i mem hi hf hlen hsame
    by_cases hlt : i < size
    · have hinc : i + 1 ≤ INT_MAX := by omega
      have hidx : pSrc + (size - i - 1) < mem0.length := by omega
      have hget : mem[pSrc + (size - i - 1)]? = some (mem0[pSrc + (size - i - 1)]) := by
        rw [hsame (size - i - 1) (by omega), List.getElem?_eq_getElem hidx]
      have hdi : pDst + i < mem.length := by omega
      obtain ⟨r, hr, hrlen, hk⟩ := ih (i + 1) (mem.set (pDst + i) (mem0[pSrc + (size - i - 1)]))
        (by omega) (by omega) (by rw [List.length_set]; exact hlen)
        (fun k hk => by rw [List.getElem?_set_ne (by omega)]; exact hsame k hk)
      refine ⟨r, ?_, hrlen, fun k => ?_⟩
      · simp only [reverse_loop_mem, if_pos hlt,
          size_sub_index size i (INT_MAX_lt_size_modulus size hs) hlt, hget, if_pos hdi,
          if_pos hinc]
        exact hr
      · rw [hk k]
        by_cases hkeq : k = pDst + i
        · subst hkeq
          have h1 : ¬ (pDst + (i + 1) ≤ pDst + i ∧ pDst + i < pDst + size) := by omega
          have h2 : pDst + i ≤ pDst + i ∧ pDst + i < pDst + size := by omega
          have h3 : size - 1 - (pDst + i - pDst) = size - i - 1 := by omega
          rw [if_neg h1, if_pos h2, h3, List.getElem?_set_self hdi,
            List.getElem?_eq_getElem hidx]
        · by_cases hin : pDst + i ≤ k ∧ k < pDst + size
          · have h1 : pDst + (i + 1) ≤ k ∧ k < pDst + size := by omega
            rw [if_pos h1, if_pos hin]
          · have h1 : ¬ (pDst + (i + 1) ≤ k ∧ k < pDst + size) := by omega
            rw [if_neg h1, if_neg hin, List.getElem?_set_ne (fun e => hkeq e.symm)]
    · refine ⟨mem, by simp only [reverse_loop_mem, if_neg hlt], hlen, fun k => ?_⟩
      have hout : ¬ (pDst + i ≤ k ∧ k < pDst + size) := by omega
      rw [if_neg hout]

theorem deserialize_mem_eq (mem : List Byte) (p q n : Nat) (h t : Int)
    (hs : h ≠ t → n ≤ INT_MAX) (hp : p + n ≤ mem.length) (hq : q + n ≤ mem.length)
    (hdis : q + n ≤ p ∨ p + n ≤ q) :
    deserialize_mem mem p q n h t
      = some (mem.take q
          ++ (if h = t then (mem.drop p).take n else ((mem.drop p).take n).reverse)
          ++ mem.drop (q + n), p + n) := by
  have hbl : ((mem.drop p).take n).length = n := by
    simp only [List.length_take, List.length_drop]; omega
  by_cases hht : h = t
  · have hst := storeBytes_eq mem q ((mem.drop p).take n) (by rw [hbl]; exact hq)
    rw [hbl] at hst
    simp only [deserialize_mem, if_pos hht, memcpy_mem, if_pos hdis, loadBytes_some mem p n hp,
      hst, Option.map_some']
  · obtain ⟨r, hr, hrlen, hk⟩ := reverse_loop_mem_spec n (hs hht) mem p q hp hq hdis n 0 mem
      (Nat.zero_le n) (by omega) rfl (fun _ _ => rfl)
    have hrl : ((mem.drop p).take n).reverse.length = n := by
      rw [List.length_reverse, hbl]
    have hq1 : q + ((mem.drop p).take n).reverse.length ≤ mem.length := by rw [hrl]; exact hq
    have e : r = mem.take q ++ ((mem.drop p).take n).reverse
        ++ mem.drop (q + ((mem.drop p).take n).reverse.length) := by
      apply List.ext_getElem?
      intro k
      rw [hk k, Nat.add_zero]
      by_cases hin : q ≤ k ∧ k < q + n
      · have hki : k = q + (k - q) := by omega
        have hlt : k - q < n := by omega
        rw [if_pos hin]
        conv => rhs; rw [hki]
        rw [stored_getElem_in mem q _ hq1 (k - q) (by rw [hrl]; exact hlt),
          List.getElem?_reverse (by rw [hbl]; exact hlt), hbl,
          List.getElem?_take_of_lt (by omega), List.getElem?_drop]
      · rw [if_neg hin]
        by_cases hlo : k < q
        · rw [stored_getElem_below mem q _ hq1 k hlo]
        · rw [stored_getElem_above mem q _ hq1 k (by rw [hrl]; omega)]
    rw [hrl] at e
    simp only [deserialize_mem, if_neg hht, hr, Option.map_some', e]

/-- C14: for every value `v` of `n` bytes and every tag pair, whenever
`serialize` returns, the buffer it leaves has the length of the buffer it was
given and agrees with it at every index outside the `n` bytes at the cursor,
and it does return when those `n` bytes lie inside the buffer (and `n` is within
the range of the `int` loop counter when the tags differ). For `deserialize` on a
memory that holds the buffer at `p` and the object `*value` at `q`: whenever it
returns, the memory agrees with the one it was given at every index outside the
`n` bytes of the object, so every byte of the buffer outside the object is
unchanged; and when the two regions lie inside the memory and do not overlap it
does return, the `n` bytes at the buffer cursor are unchanged, and the object
holds what `deserialize` on two separate objects yields. -/
theorem serialize_deserialize_frame (mem : List Byte) (p q n : Nat) (v : List Byte)
    (h t : Int) :
    (∀ buf1 c, serialize mem p v h t = some (buf1, c) →
      buf1.length = mem.length ∧ ∀ k, (k < p ∨ p + v.length ≤ k) → buf1[k]? = mem[k]?) ∧
    ((h ≠ t → v.length ≤ INT_MAX) → p + v.length ≤ mem.length →
      ∃ buf1, serialize mem p v h t = some (buf1, p + v.length)) ∧
    (∀ mem1 c, deserialize_mem mem p q n h t = some (mem1, c) →
      mem1.length = mem.length ∧ ∀ k, (k < q ∨ q + n ≤ k) → mem1[k]? = mem[k]?) ∧
    ((h ≠ t → n ≤ INT_MAX) → p + n ≤ mem.length → q + n ≤ mem.length →
      (q + n ≤ p ∨ p + n ≤ q) →
      ∃ mem1 old out1, deserialize_mem mem p q n h t = some (mem1, p + n) ∧
        loadBytes mem q n = some old ∧ deserialize mem p old h t = some (out1, p + n) ∧
        loadBytes mem1 q n = some out1 ∧ loadBytes mem1 p n = loadBytes mem p n) := by
  refine ⟨fun buf1 c hr => serialize_frame mem p v h t buf1 c hr,
    fun hs hp => ⟨_, serialize_eq mem p v h t hs hp⟩,
    fun mem1 c hr => deserialize_mem_frame mem p q n h t mem1 c hr, ?_⟩
  intro hs hp hq hdis
  have hbl : ((mem.drop p).take n).length = n := by
    simp only [List.length_take, List.length_drop]; omega
  have hol : ((mem.drop q).take n).length = n := by
    simp only [List.length_take, List.length_drop]; omega
  have hel : (if h = t then (mem.drop p).take n else ((mem.drop p).take n).reverse).length
      = n := by
    split
    · exact hbl
    · rw [List.length_reverse, hbl]
  have hmem := deserialize_mem_eq mem p q n h t hs hp hq hdis
  have hfr := deserialize_mem_frame mem p q n h t _ _ hmem
  refine ⟨_, (mem.drop q).take n,
    if h = t then (mem.drop p).take n else ((mem.drop p).take n).reverse, hmem,
    loadBytes_some mem q n hq, ?_, ?_, ?_⟩
  · have hde := deserialize_of_load mem p ((mem.drop q).take n) ((mem.drop p).take n) h t
      (fun hne => by rw [hol]; exact hs hne) (by rw [hol]; exact loadBytes_some mem p n hp)
    rw [hol] at hde
    exact hde
  · exact stored_load_of_length mem q n _ hel hq
  · rw [loadBytes_some mem p n hp]
    apply loadBytes_ext _ p n _ (by rw [hfr.1]; exact hp) hbl
    intro i hi
    rw [hfr.2 (p + i) (by omega), List.getElem?_take_of_lt hi, List.getElem?_drop]

/-- Witness of C14: a four-byte buffer at address 0 and a four-byte object at
address 4 of an eight-byte memory, with the tags `LITTLE_ENDIAN`, `BIG_ENDIAN`. -/
theorem serialize_deserialize_frame_witness :
    (∃ buf1, serialize [0x12, 0x34, 0x56, 0x78, 0, 0, 0, 0] 0 [0xdd, 0xcc, 0xbb, 0xaa]
        LITTLE_ENDIAN BIG_ENDIAN
      = some (buf1, 0 + ([0xdd, 0xcc, 0xbb, 0xaa] : List Byte).length)) ∧
    (∃ mem1 old out1,
      deserialize_mem [0x12, 0x34, 0x56, 0x78, 0, 0, 0, 0] 0 4 4 LITTLE_ENDIAN BIG_ENDIAN
        = some (mem1, 0 + 4) ∧
      loadBytes [0x12, 0x34, 0x56, 0x78, 0, 0, 0, 0] 4 4 = some old ∧
      deserialize [0x12, 0x34, 0x56, 0x78, 0, 0, 0, 0] 0 old LITTLE_ENDIAN BIG_ENDIAN
        = some (out1, 0 + 4) ∧
      loadBytes mem1 4 4 = some out1 ∧
      loadBytes mem1 0 4 = loadBytes [0x12, 0x34, 0x56, 0x78, 0, 0, 0, 0] 0 4) :=
  ⟨(serialize_deserialize_frame [0x12, 0x34, 0x56, 0x78, 0, 0, 0, 0] 0 4 4
      [0xdd, 0xcc, 0xbb, 0xaa] LITTLE_ENDIAN BIG_ENDIAN).2.1 (fun _ => by decide) (by decide),
    (serialize_deserialize_frame [0x12, 0x34, 0x56, 0x78, 0, 0, 0, 0] 0 4 4
      [0xdd, 0xcc, 0xbb, 0xaa] LITTLE_ENDIAN BIG_ENDIAN).2.2.2 (fun _ => by decide) (by decide)
      (by decide) (by decide)⟩

end Hendian
